import Mathlib

/-
Shallow embedding of the JSON component of the INI-JSON-XML parsing library
(C++ sources under src/).  Modelling choices, kept as close to the source as
the logic allows:

* `JSONValue` mirrors the C++ "fat union" class: one tag (`JType`, the C++
  nested enum `Type`) plus every payload field, with the same default values
  as the C++ member initializers.  Inactive payloads are representable and
  kept, exactly as in the class.
* `std::map<std::string, JSONValue>` is modelled as an association list that
  the only inserting operation (`set`) keeps sorted by key, mirroring the
  ordered-map invariant; iteration order (`get_keys`, serialization) is the
  list order, i.e. ascending keys, as for `std::map`.
* `double` is modelled as an exact rational (`Rat`).  `std::to_string(double)`
  is fixed 6-fractional-digit formatting, modelled by `toString6` (round half
  up at the 7th digit; the concrete values used in theorems are not ties).
  `std::stod` is modelled exactly over `Rat` (no binary rounding, no
  overflow); `std::stoi` is modelled with the real int range check.
* `int` is `Int` with the 32-bit range enforced where the C++ library throws
  (`std::stoi`).
* The cursor (`size_t& pos`) becomes list consumption: each parsing function
  takes the remaining characters and returns the rest, which is the same
  state passing with the consumed prefix made explicit.
* The recursive-descent core (`parse_value`, `parse_object`, `parse_array`
  and their two while loops) is one structurally recursive function
  `parseRun` over a mode tag plus a fuel counter that only bounds the mutual
  recursion depth; `parse` passes fuel `length + 1`, which the round-trip
  development below proves sufficient on serializer output (every recursive
  step is charged to at least one consumed input character).  Running out of
  fuel reports the same "Unexpected end of input" failure the C++ code
  produces when input is exhausted.
* Exceptions (`throw std::runtime_error` caught in `parse`) become
  `Except String`.
* Strings are `List Char` / `String`; this is byte-faithful for ASCII input
  and order-faithful for the rest (UTF-8 byte order equals code point order).
-/

/-- Tags of the C++ nested enum `JSONValue::Type`. -/
inductive JType where
  | String
  | Number
  | Integer
  | Boolean
  | Null
  | Object
  | Array
deriving DecidableEq, Repr

/-- Fat-union value object: the tag plus every payload member of the C++
class, in declaration order (`type_`, `string_value_`, `int_value_`,
`double_value_`, `bool_value_`, `object_values_`, `array_values_`). -/
inductive JSONValue where
  | mk (type_ : JType) (string_value_ : String) (int_value_ : Int)
       (double_value_ : Rat) (bool_value_ : Bool)
       (object_values_ : List (String × JSONValue))
       (array_values_ : List JSONValue)

/-- Tag of a value (C++ accessor `get_type`). -/
def JSONValue.get_type : JSONValue → JType
  | .mk t _ _ _ _ _ _ => t

/-- Payload member `string_value_`. -/
def JSONValue.string_value : JSONValue → String
  | .mk _ s _ _ _ _ _ => s

/-- Payload member `int_value_`. -/
def JSONValue.int_value : JSONValue → Int
  | .mk _ _ i _ _ _ _ => i

/-- Payload member `double_value_`. -/
def JSONValue.double_value : JSONValue → Rat
  | .mk _ _ _ d _ _ _ => d

/-- Payload member `bool_value_`. -/
def JSONValue.bool_value : JSONValue → Bool
  | .mk _ _ _ _ b _ _ => b

/-- Payload member `object_values_`. -/
def JSONValue.object_values : JSONValue → List (String × JSONValue)
  | .mk _ _ _ _ _ o _ => o

/-- Payload member `array_values_`. -/
def JSONValue.array_values : JSONValue → List JSONValue
  | .mk _ _ _ _ _ _ a => a

/-- Default-constructed value `JSONValue()`: Null tag, all payloads at their
member-initializer defaults. -/
def JSONValue.null : JSONValue := .mk .Null "" 0 0 false [] []

/-- Constructor `JSONValue(const std::string&)`. -/
def JSONValue.ofString (s : String) : JSONValue := .mk .String s 0 0 false [] []

/-- Constructor `JSONValue(int)`. -/
def JSONValue.ofInt (i : Int) : JSONValue := .mk .Integer "" i 0 false [] []

/-- Constructor `JSONValue(double)`. -/
def JSONValue.ofDouble (d : Rat) : JSONValue := .mk .Number "" 0 d false [] []

/-- Constructor `JSONValue(bool)`. -/
def JSONValue.ofBool (b : Bool) : JSONValue := .mk .Boolean "" 0 0 b [] []

/-! Decimal digit utilities shared by the number formatting and scanning
models. -/

/-- Numeric value of a decimal digit character. -/
def digitToNat (c : Char) : Nat := c.toNat - '0'.toNat

/-- Value of a big-endian decimal digit run (how both scanning models
accumulate digits). -/
def digitsVal (l : List Char) : Nat :=
  l.foldl (fun a c => a * 10 + digitToNat c) 0

/-- Fueled decimal rendering of a natural number, most significant digit
first; the fuel only serves totality and `natRepr` always passes enough. -/
def natReprAux : Nat → Nat → List Char
  | 0, _ => []
  | fuel + 1, n =>
    if n < 10 then [Nat.digitChar n]
    else natReprAux fuel (n / 10) ++ [Nat.digitChar (n % 10)]

/-- Decimal rendering of a natural number (digit list of `std::to_string`). -/
def natRepr (n : Nat) : List Char := natReprAux (n + 1) n

/-- Decimal rendering of an int, `std::to_string(int)`. -/
def intRepr (i : Int) : List Char :=
  if i < 0 then '-' :: natRepr i.natAbs else natRepr i.natAbs

/-- Fixed 6-fractional-digit decimal formatting of a rational: the model of
`std::to_string(double)` (printf %f).  The scaled-and-rounded magnitude
`m = floor(|q| * 10^6 + 1/2)` is computed on the reduced fraction as
`(|num| * 2 * 10^6 + den) / (2 * den)` in natural-number arithmetic. -/
def toString6 (q : Rat) : String :=
  let m : Nat := (q.num.natAbs * 2000000 + q.den) / (2 * q.den)
  let ip : List Char := natRepr (m / 1000000)
  let fd : List Char := natRepr (m % 1000000)
  let frac : List Char := List.replicate (6 - fd.length) '0' ++ fd
  (((if q.num < 0 then ['-'] else []) ++ ip ++ ['.'] ++ frac)).asString

/-- Whitespace class of C `isspace` (space, \t, \n, \v, \f, \r). -/
def isCSpace (c : Char) : Bool :=
  c = ' ' ∨ c = '\t' ∨ c = '\n' ∨ c = '\x0b' ∨ c = '\x0c' ∨ c = '\r'

/-- Model of `std::stoi`: optional leading whitespace and sign, then a digit
run (else failure), value taken from the digits with the 32-bit int range
check (`std::out_of_range` becomes `none`). -/
def stoiModel (l : List Char) : Option Int :=
  let l1 := l.dropWhile isCSpace
  let p : Int × List Char :=
    match l1 with
    | [] => (1, [])
    | c :: t => if c = '-' then (-1, t) else if c = '+' then (1, t) else (1, c :: t)
  let ds := p.2.takeWhile Char.isDigit
  if ds.isEmpty then none
  else
    let v : Int := p.1 * (digitsVal ds : Int)
    if v < -2147483648 ∨ 2147483647 < v then none else some v

/-- Model of `std::stod` over exact rationals: optional whitespace and sign,
mantissa digits with an optional fraction (at least one digit overall, else
failure), and an exponent part that only counts when the exponent marker is
followed by at least one digit (strtod longest-valid-prefix behaviour).  The
value `sign * mantissa * 10^e` is assembled as one quotient
`(sign * digits * 10^max(e,0)) / (10^(fraclen + max(-e,0)))` so that the
model stays within kernel-computable integer arithmetic. -/
def stodModel (l : List Char) : Option Rat :=
  let l1 := l.dropWhile isCSpace
  let p : Int × List Char :=
    match l1 with
    | [] => (1, [])
    | c :: t => if c = '-' then (-1, t) else if c = '+' then (1, t) else (1, c :: t)
  let d1 := p.2.takeWhile Char.isDigit
  let l2 := p.2.dropWhile Char.isDigit
  let f : List Char × List Char :=
    match l2 with
    | [] => ([], [])
    | c :: t =>
      if c = '.' then (t.takeWhile Char.isDigit, t.dropWhile Char.isDigit)
      else ([], c :: t)
  if d1.isEmpty ∧ f.1.isEmpty then none
  else
    let e : Int :=
      match f.2 with
      | c :: t =>
        if c = 'e' ∨ c = 'E' then
          let ps : Int × List Char :=
            match t with
            | [] => (1, [])
            | c2 :: u =>
              if c2 = '-' then (-1, u) else if c2 = '+' then (1, u)
              else (1, c2 :: u)
          let ed := ps.2.takeWhile Char.isDigit
          if ed.isEmpty then 0 else ps.1 * (digitsVal ed : Int)
        else 0
      | [] => 0
    some (Rat.divInt
      (p.1 * (digitsVal (d1 ++ f.1) : Int) * ((10 ^ e.toNat : Nat) : Int))
      (((10 ^ (f.1.length + (-e).toNat) : Nat) : Int)))

/-! Methods of `JSONValue`. -/

/-- Conversion `as_string`: the switch over the tag; Object/Array fall to the
default arm returning the empty string. -/
def JSONValue.as_string (v : JSONValue) : String :=
  match v.get_type with
  | .String => v.string_value
  | .Integer => (intRepr v.int_value).asString
  | .Number => toString6 v.double_value
  | .Boolean => if v.bool_value then "true" else "false"
  | .Null => "null"
  | _ => ""

/-- Conversion `as_int`: strings go through `std::stoi` with 0 on failure,
doubles truncate toward zero, booleans map to 0/1, the rest to 0. -/
def JSONValue.as_int (v : JSONValue) : Int :=
  match v.get_type with
  | .String => (stoiModel v.string_value.data).getD 0
  | .Integer => v.int_value
  | .Number => v.double_value.num / (v.double_value.den : Int)
  | .Boolean => if v.bool_value then 1 else 0
  | _ => 0

/-- Conversion `as_double`: mirror of `as_int` with `std::stod`. -/
def JSONValue.as_double (v : JSONValue) : Rat :=
  match v.get_type with
  | .String => (stodModel v.string_value.data).getD 0
  | .Integer => (v.int_value : Rat)
  | .Number => v.double_value
  | .Boolean => if v.bool_value then 1 else 0
  | _ => 0

/-- Conversion `as_bool`: strings are false exactly for "", "false", "0";
numbers test nonzero; booleans pass through; the rest are false. -/
def JSONValue.as_bool (v : JSONValue) : Bool :=
  match v.get_type with
  | .String =>
    ¬(v.string_value = "") ∧ v.string_value ≠ "false" ∧ v.string_value ≠ "0"
  | .Integer => v.int_value ≠ 0
  | .Number => v.double_value ≠ 0
  | .Boolean => v.bool_value
  | _ => false

/-- Lexicographic character-list order: the model of
`std::string::operator<` (bytewise lexicographic; UTF-8 byte order and code
point order agree). -/
def strLt : List Char → List Char → Bool
  | [], [] => false
  | [], _ :: _ => true
  | _ :: _, [] => false
  | a :: as, b :: bs =>
    if a < b then true else if b < a then false else strLt as bs

/-- Ordered insert/overwrite into the key-sorted association list: the model
of `object_values_[key] = value` on `std::map`. -/
def setEntry : List (String × JSONValue) → String → JSONValue →
    List (String × JSONValue)
  | [], k, v => [(k, v)]
  | (k', v') :: tl, k, v =>
    if strLt k.data k'.data then (k, v) :: (k', v') :: tl
    else if k = k' then (k, v) :: tl
    else (k', v') :: setEntry tl k v

/-- Lookup in the association list (the model of `std::map::find`; on the
sorted duplicate-free lists the library builds, first match is the match). -/
def findEntry : List (String × JSONValue) → String → Option JSONValue
  | [], _ => none
  | (k', v') :: tl, k => if k = k' then some v' else findEntry tl k

/-- Mutator `set`: coercing a non-Object receiver to Object clears the scalar
and array payloads (the C++ code leaves `object_values_` in place), then
inserts. -/
def JSONValue.set (v : JSONValue) (key : String) (value : JSONValue) :
    JSONValue :=
  match v with
  | .mk t s i d b o a =>
    if t ≠ .Object then .mk .Object "" 0 0 false (setEntry o key value) []
    else .mk t s i d b (setEntry o key value) a

/-- Accessor `get`: Null-typed default off an Object receiver or a missing
key (the C++ code returns a fresh `JSONValue()`). -/
def JSONValue.get (v : JSONValue) (key : String) : JSONValue :=
  if v.get_type ≠ .Object then JSONValue.null
  else
    match findEntry v.object_values key with
    | some w => w
    | none => JSONValue.null

/-- Membership test `has_key`. -/
def JSONValue.has_key (v : JSONValue) (key : String) : Bool :=
  if v.get_type ≠ .Object then false
  else (findEntry v.object_values key).isSome

/-- Accessor `get_keys`: the keys in map (ascending) order for an Object,
empty otherwise. -/
def JSONValue.get_keys (v : JSONValue) : List String :=
  if v.get_type = .Object then v.object_values.map Prod.fst else []

/-- Mutator `push_back`: coercing a non-Array receiver clears the scalar and
object payloads (the C++ code leaves `array_values_` in place), then
appends. -/
def JSONValue.push_back (v : JSONValue) (value : JSONValue) : JSONValue :=
  match v with
  | .mk t s i d b o a =>
    if t ≠ .Array then .mk .Array "" 0 0 false [] (a ++ [value])
    else .mk t s i d b o (a ++ [value])

/-- Accessor `at` (named `atIndex` because `at` is reserved in Lean):
Null-typed default off an Array receiver or out of bounds. -/
def JSONValue.atIndex (v : JSONValue) (index : Nat) : JSONValue :=
  if v.get_type ≠ .Array ∨ v.array_values.length ≤ index then JSONValue.null
  else v.array_values.getD index JSONValue.null

/-- Accessor `size`: child count for Array/Object, 0 otherwise. -/
def JSONValue.size (v : JSONValue) : Nat :=
  if v.get_type = .Array then v.array_values.length
  else if v.get_type = .Object then v.object_values.length
  else 0

/-! Parser helpers (total, structural on the character list). -/

/-- Whitespace skipping, `skip_whitespace` (the cursor after the run of C
whitespace). -/
def skipWs (l : List Char) : List Char := l.dropWhile isCSpace

/-- Decoding table of the escape switch in `parse_string`; `none` is the
"Invalid escape sequence" case. -/
def escChar (e : Char) : Option Char :=
  if e = '"' then some '"'
  else if e = '\\' then some '\\'
  else if e = '/' then some '/'
  else if e = 'b' then some '\x08'
  else if e = 'f' then some '\x0c'
  else if e = 'n' then some '\n'
  else if e = 'r' then some '\r'
  else if e = 't' then some '\t'
  else none

/-- Body of the `parse_string` while loop, after the opening quote; `acc` is
the `result` string being built. -/
def parseStringGo (acc : List Char) : List Char →
    Except String (String × List Char)
  | [] => .error "Unterminated string"
  | c :: r =>
    if c = '"' then .ok (acc.asString, r)
    else if c = '\\' then
      match r with
      | [] => .error "Unexpected end of input in string"
      | e :: r2 =>
        match escChar e with
        | some ce => parseStringGo (acc ++ [ce]) r2
        | none => .error ("Invalid escape sequence: \\" ++ String.singleton e)
    else parseStringGo (acc ++ [c]) r

/-- Function `parse_string`: checks and consumes the opening quote, then runs
the loop. -/
def parseStringL (l : List Char) : Except String (String × List Char) :=
  match l with
  | [] => .error ("Expected " ++ String.singleton '"' ++ " at start of string")
  | c :: r =>
    if c = '"' then parseStringGo [] r
    else .error ("Expected " ++ String.singleton '"' ++ " at start of string")

/-- Lexeme scan of `parse_number` (the moves of `pos` before `substr`):
optional minus, digit run, optional point plus digit run, optional exponent
marker with optional sign and digit run; returns the lexeme and the rest. -/
def numLexeme (l : List Char) : List Char × List Char :=
  let p : List Char × List Char :=
    match l with
    | [] => ([], [])
    | c :: t => if c = '-' then (['-'], t) else ([], c :: t)
  let d1 := p.2.takeWhile Char.isDigit
  let l1 := p.2.dropWhile Char.isDigit
  let f : List Char × List Char :=
    match l1 with
    | [] => ([], [])
    | c :: t =>
      if c = '.' then ('.' :: t.takeWhile Char.isDigit, t.dropWhile Char.isDigit)
      else ([], c :: t)
  let ex : List Char × List Char :=
    match f.2 with
    | c :: t =>
      if c = 'e' ∨ c = 'E' then
        match t with
        | [] => ([c], [])
        | c2 :: u =>
          if c2 = '+' then
            (c :: '+' :: u.takeWhile Char.isDigit, u.dropWhile Char.isDigit)
          else if c2 = '-' then
            (c :: '-' :: u.takeWhile Char.isDigit, u.dropWhile Char.isDigit)
          else (c :: (c2 :: u).takeWhile Char.isDigit, (c2 :: u).dropWhile Char.isDigit)
      else ([], c :: t)
    | [] => ([], [])
  (p.1 ++ d1 ++ f.1 ++ ex.1, ex.2)

/-- Function `parse_number`: scan the lexeme, then dispatch on whether it
contains a point or exponent marker (`std::stod`, Number kind) or not
(`std::stoi`, Integer kind); a failed conversion is the fatal
"Invalid number" error. -/
def parseNumberL (l : List Char) : Except String (JSONValue × List Char) :=
  let lex := (numLexeme l).1
  let rest := (numLexeme l).2
  if lex.contains '.' ∨ lex.contains 'e' ∨ lex.contains 'E' then
    match stodModel lex with
    | some q => .ok (JSONValue.ofDouble q, rest)
    | none => .error ("Invalid number: " ++ lex.asString)
  else
    match stoiModel lex with
    | some i => .ok (JSONValue.ofInt i, rest)
    | none => .error ("Invalid number: " ++ lex.asString)

/-- Object state right after `obj.set("", JSONValue())` at the top of
`parse_object`. -/
def emptyObjEntries : List (String × JSONValue) := [("", JSONValue.null)]

/-- Object value assembled from the accumulated entries (the local `obj` of
`parse_object`, built exclusively through `set`). -/
def mkObj (es : List (String × JSONValue)) : JSONValue :=
  .mk .Object "" 0 0 false es []

/-- Array value assembled from the pushed elements (the local `arr` of
`parse_array`): with no `push_back` ever executed it is still the
default-constructed Null value. -/
def mkArr (xs : List JSONValue) : JSONValue :=
  if xs.isEmpty then JSONValue.null else .mk .Array "" 0 0 false [] xs

/-- Control point of the recursive descent: inside `parse_value`, inside the
`parse_object` while loop (with the entries built so far), or inside the
`parse_array` while loop (with the elements pushed so far). -/
inductive PMode where
  | value
  | objLoop (acc : List (String × JSONValue))
  | arrLoop (acc : List JSONValue)

/-- Recursive descent of `parse_value` / `parse_object` / `parse_array`,
fueled (see the header comment).  Each equation mirrors the corresponding
C++ block, including the loop-exit-at-end-of-input returns after a consumed
comma and the unchecked-`l` loop guards. -/
def parseRun : Nat → PMode → List Char → Except String (JSONValue × List Char)
  | 0, _, _ => .error "Unexpected end of input"
  | n + 1, .value, l =>
    match skipWs l with
    | [] => .error "Unexpected end of input"
    | c :: rest =>
      if c = '{' then
        match skipWs rest with
        | '}' :: r => .ok (mkObj emptyObjEntries, r)
        | [] => .ok (mkObj emptyObjEntries, [])
        | l1 => parseRun n (.objLoop emptyObjEntries) l1
      else if c = '[' then
        match skipWs rest with
        | ']' :: r => .ok (JSONValue.null, r)
        | [] => .ok (JSONValue.null, [])
        | l1 => parseRun n (.arrLoop []) l1
      else if c = '"' then
        match parseStringL (c :: rest) with
        | .ok (s, r) => .ok (JSONValue.ofString s, r)
        | .error e => .error e
      else if c = 't' ∨ c = 'f' then
        if (c :: rest).take 4 = ['t', 'r', 'u', 'e'] then
          .ok (JSONValue.ofBool true, (c :: rest).drop 4)
        else if (c :: rest).take 5 = ['f', 'a', 'l', 's', 'e'] then
          .ok (JSONValue.ofBool false, (c :: rest).drop 5)
        else .error "Invalid boolean value"
      else if c = 'n' then
        if (c :: rest).take 4 = ['n', 'u', 'l', 'l'] then
          .ok (JSONValue.null, (c :: rest).drop 4)
        else .error "Invalid null value"
      else if c.isDigit ∨ c = '-' then parseNumberL (c :: rest)
      else .error ("Unexpected character: " ++ String.singleton c)
  | n + 1, .objLoop acc, l =>
    match l with
    | [] => .ok (mkObj acc, [])
    | _ :: _ =>
      match skipWs l with
      | '"' :: r0 =>
        match parseStringGo [] r0 with
        | .error e => .error e
        | .ok (key, l2) =>
          match skipWs l2 with
          | ':' :: l3 =>
            match parseRun n .value l3 with
            | .error e => .error e
            | .ok (v, l4) =>
              match skipWs l4 with
              | [] => .error "Unexpected end of input in object"
              | '}' :: r => .ok (mkObj (setEntry acc key v), r)
              | ',' :: r => parseRun n (.objLoop (setEntry acc key v)) r
              | _ => .error ("Expected ',' or '" ++ String.singleton '}' ++ "' in object")
          | _ => .error "Expected ':' after key"
      | _ => .error "Expected string key in object"
  | n + 1, .arrLoop acc, l =>
    match l with
    | [] => .ok (mkArr acc, [])
    | _ :: _ =>
      match parseRun n .value l with
      | .error e => .error e
      | .ok (v, l2) =>
        match skipWs l2 with
        | [] => .error "Unexpected end of input in array"
        | ']' :: r => .ok (mkArr (acc ++ [v]), r)
        | ',' :: r => parseRun n (.arrLoop (acc ++ [v])) r
        | _ => .error "Expected ',' or ']' in array"

/-- Result wrapper `JSONResult` (success flag, error message, root value). -/
structure JSONResult where
  success : Bool
  error_message : String
  root : JSONValue

/-- Method `JSONParser::parse`: run `parse_value` on the whole input; a
thrown error lands in the result (`success=false`, the message, the root
left default-constructed, i.e. Null). -/
def JSONParser.parse (content : String) : JSONResult :=
  match parseRun (content.length + 1) .value content.data with
  | .ok (v, _) => ⟨true, "", v⟩
  | .error e => ⟨false, e, JSONValue.null⟩

/-! Serializer (`value_to_string` and the `to_string` wrapper).  The C++ code
iterates `get_keys()` and calls `get(key)` per key; on the sorted
duplicate-free maps the class maintains this is exactly iteration over the
entry list, which is how `entriesToString` walks it.  The flag-driven
comma placement of the loops is rendered as the equivalent
joined-with-separator recursion. -/

mutual

/-- Function `value_to_string` on a value, nesting level and pretty flag. -/
def valueToString (v : JSONValue) (indent : Nat) (pp : Bool) : String :=
  let indentStr : String := if pp then (List.replicate (indent * 2) ' ').asString else ""
  let nl : String := if pp then "\n" else ""
  match v with
  | .mk t s i d b o a =>
    match t with
    | .String => "\"" ++ (JSONValue.mk t s i d b o a).as_string ++ "\""
    | .Integer => (JSONValue.mk t s i d b o a).as_string
    | .Number => (JSONValue.mk t s i d b o a).as_string
    | .Boolean => (JSONValue.mk t s i d b o a).as_string
    | .Null => "null"
    | .Object =>
      "\x7b" ++ nl ++ entriesToString o indent pp ++ nl ++ indentStr ++ "\x7d"
    | .Array =>
      "[" ++ nl ++ elemsToString a indent pp ++ nl ++ indentStr ++ "]"

/-- Object member loop of `value_to_string` (comma-and-newline separated). -/
def entriesToString (es : List (String × JSONValue)) (indent : Nat) (pp : Bool) :
    String :=
  let indentStr : String := if pp then (List.replicate (indent * 2) ' ').asString else ""
  let nl : String := if pp then "\n" else ""
  match es with
  | [] => ""
  | (k, v) :: tl =>
    indentStr ++ (if pp then "  " else "") ++ "\"" ++ k ++ "\": " ++
      valueToString v (indent + 1) pp ++
      (match tl with
       | [] => ""
       | _ :: _ => "," ++ nl ++ entriesToString tl indent pp)

/-- Array element loop of `value_to_string`. -/
def elemsToString (xs : List JSONValue) (indent : Nat) (pp : Bool) : String :=
  let indentStr : String := if pp then (List.replicate (indent * 2) ' ').asString else ""
  let nl : String := if pp then "\n" else ""
  match xs with
  | [] => ""
  | v :: tl =>
    indentStr ++ (if pp then "  " else "") ++ valueToString v (indent + 1) pp ++
      (match tl with
       | [] => ""
       | _ :: _ => "," ++ nl ++ elemsToString tl indent pp)

end

/-- Method `JSONParser::to_string`: serialize the root of a result. -/
def JSONParser.to_string (result : JSONResult) (pretty_print : Bool) : String :=
  valueToString result.root 0 pretty_print

/-! Path accessor (`JSONResult` query surface). -/

/-- Components produced by the `std::getline(path_stream, component, '.')`
loop of `get_value`: split at dots, keeping empty components, except that
getline extracts nothing (and stops) at end of input, so a single trailing
dot yields no extra component. -/
def splitGo (acc : List Char) : List Char → List String
  | [] => if acc.isEmpty then [] else [acc.asString]
  | c :: r => if c = '.' then acc.asString :: splitGo [] r else splitGo (acc ++ [c]) r

/-- Component list of a path under getline semantics. -/
def splitGetline (l : List Char) : List String :=
  match l with
  | [] => []
  | _ :: _ => splitGo [] l

/-- Walk of the `get_value` while loop: at each component the current value
must be an Object and the child must be non-Null, else a fresh Null value is
returned. -/
def walkPath (cur : JSONValue) : List String → JSONValue
  | [] => cur
  | c :: cs =>
    if cur.get_type ≠ .Object then JSONValue.null
    else
      let nxt := cur.get c
      if nxt.get_type = .Null then JSONValue.null
      else walkPath nxt cs

/-- Path resolution from a root value (body of `JSONResult::get_value`): the
empty path returns the root directly. -/
def getValuePath (root : JSONValue) (path : String) : JSONValue :=
  if path = "" then root else walkPath root (splitGetline path.data)

/-- Method `JSONResult::get_value`. -/
def JSONResult.get_value (r : JSONResult) (path : String) : JSONValue :=
  getValuePath r.root path

/-- Method `JSONResult::has_path`: resolved type different from Null. -/
def JSONResult.has_path (r : JSONResult) (path : String) : Bool :=
  (r.get_value path).get_type ≠ .Null

/-- Method `JSONResult::get_keys`: keys of the resolved value when it is an
Object, empty otherwise. -/
def JSONResult.get_keys (r : JSONResult) (path : String) : List String :=
  let v := r.get_value path
  if v.get_type = .Object then v.get_keys else []

/-- Typed getter `get_string`: default on a Null-typed resolution. -/
def JSONResult.get_string (r : JSONResult) (path : String)
    (default_value : String) : String :=
  let v := r.get_value path
  if v.get_type = .Null then default_value else v.as_string

/-- Typed getter `get_int`. -/
def JSONResult.get_int (r : JSONResult) (path : String) (default_value : Int) :
    Int :=
  let v := r.get_value path
  if v.get_type = .Null then default_value else v.as_int

/-- Typed getter `get_double`. -/
def JSONResult.get_double (r : JSONResult) (path : String)
    (default_value : Rat) : Rat :=
  let v := r.get_value path
  if v.get_type = .Null then default_value else v.as_double

/-- Typed getter `get_bool`. -/
def JSONResult.get_bool (r : JSONResult) (path : String)
    (default_value : Bool) : Bool :=
  let v := r.get_value path
  if v.get_type = .Null then default_value else v.as_bool

/-! Observational predicates on value trees, used to state the claims. -/

/-- Entry list containing the empty-string key. -/
def hasEmptyKey (es : List (String × JSONValue)) : Bool :=
  es.any (fun p => p.1 = "")

/-- Key strictly below the first key of the list (vacuous for an empty
list). -/
def keyBelow (k : String) : List (String × JSONValue) → Bool
  | [] => true
  | (k2, _) :: _ => strLt k.data k2.data

/-- Entry list strictly ascending in the key order (the `std::map`
invariant). -/
def keysSorted : List (String × JSONValue) → Bool
  | [] => true
  | (k, _) :: tl => keyBelow k tl && keysSorted tl

mutual

/-- Invariant of every value the parser builds: each Object node carries a
strictly ascending entry list that contains the empty-string key (the
`obj.set("", JSONValue())` initializer of `parse_object`). -/
def parsedInv : JSONValue → Bool
  | .mk t _ _ _ _ o a =>
    (if t = .Object then keysSorted o && hasEmptyKey o else true) &&
      parsedInvEntries o && parsedInvElems a

/-- Entry-list form of `parsedInv`. -/
def parsedInvEntries : List (String × JSONValue) → Bool
  | [] => true
  | (_, v) :: tl => parsedInv v && parsedInvEntries tl

/-- Element-list form of `parsedInv`. -/
def parsedInvElems : List JSONValue → Bool
  | [] => true
  | v :: tl => parsedInv v && parsedInvElems tl

end

mutual

/-- Weaker reading used by the claims: every Object node (root or nested, in
either payload list) contains an entry for the empty-string key. -/
def everyObjectHasEmptyKey : JSONValue → Bool
  | .mk t _ _ _ _ o a =>
    (if t = .Object then hasEmptyKey o else true) &&
      everyObjectHasEmptyKeyEntries o && everyObjectHasEmptyKeyElems a

/-- Entry-list form of `everyObjectHasEmptyKey`. -/
def everyObjectHasEmptyKeyEntries : List (String × JSONValue) → Bool
  | [] => true
  | (_, v) :: tl => everyObjectHasEmptyKey v && everyObjectHasEmptyKeyEntries tl

/-- Element-list form of `everyObjectHasEmptyKey`. -/
def everyObjectHasEmptyKeyElems : List JSONValue → Bool
  | [] => true
  | v :: tl => everyObjectHasEmptyKey v && everyObjectHasEmptyKeyElems tl

end

mutual

/-- Image of a value tree under serialize-then-reparse: scalars come back
freshly constructed, every Object gains the parser's empty-string member
when missing, and an empty Array collapses to the default Null value
(`parse_array` returns its default-constructed local untouched). -/
def parseImage : JSONValue → JSONValue
  | .mk t s i d b o a =>
    match t with
    | .String => JSONValue.ofString s
    | .Integer => JSONValue.ofInt i
    | .Number => JSONValue.ofDouble d
    | .Boolean => JSONValue.ofBool b
    | .Null => JSONValue.null
    | .Object =>
      mkObj (if hasEmptyKey o then parseImageEntries o
             else ("", JSONValue.null) :: parseImageEntries o)
    | .Array => mkArr (parseImageElems a)

/-- Entry-list form of `parseImage`. -/
def parseImageEntries : List (String × JSONValue) → List (String × JSONValue)
  | [] => []
  | (k, v) :: tl => (k, parseImage v) :: parseImageEntries tl

/-- Element-list form of `parseImage`. -/
def parseImageElems : List JSONValue → List JSONValue
  | [] => []
  | v :: tl => parseImage v :: parseImageElems tl

end

/-- String payload free of the two characters the string grammar treats
specially (quote and backslash), which the serializer does not re-escape. -/
def strClean (s : String) : Bool :=
  s.data.all (fun c => ¬(c = '"') ∧ ¬(c = '\\'))

mutual

/-- Well-formed tree for the round-trip statement: values as the public
constructors and mutators build them — inactive payloads at their defaults,
Object entry lists strictly ascending, keys and string payloads free of
quote/backslash, ints in the 32-bit range, and doubles with at most six
fractional decimal digits (the precision `std::to_string` emits). -/
def goodTree : JSONValue → Bool
  | .mk t s i d b o a =>
    match t with
    | .String =>
      strClean s ∧ i = 0 ∧ d = 0 ∧ b = false ∧ o.isEmpty ∧ a.isEmpty
    | .Integer =>
      s = "" ∧ -2147483648 ≤ i ∧ i ≤ 2147483647 ∧ d = 0 ∧ b = false ∧
        o.isEmpty ∧ a.isEmpty
    | .Number =>
      s = "" ∧ i = 0 ∧ 1000000 % d.den = 0 ∧ b = false ∧ o.isEmpty ∧
        a.isEmpty
    | .Boolean => s = "" ∧ i = 0 ∧ d = 0 ∧ o.isEmpty ∧ a.isEmpty
    | .Null => s = "" ∧ i = 0 ∧ d = 0 ∧ b = false ∧ o.isEmpty ∧ a.isEmpty
    | .Object =>
      (s = "" ∧ i = 0 ∧ d = 0 ∧ b = false ∧ a.isEmpty) && keysSorted o &&
        goodEntries o
    | .Array =>
      (s = "" ∧ i = 0 ∧ d = 0 ∧ b = false ∧ o.isEmpty) && goodElems a

/-- Entry-list form of `goodTree` (also demands clean keys). -/
def goodEntries : List (String × JSONValue) → Bool
  | [] => true
  | (k, v) :: tl => strClean k && goodTree v && goodEntries tl

/-- Element-list form of `goodTree`. -/
def goodElems : List JSONValue → Bool
  | [] => true
  | v :: tl => goodTree v && goodElems tl

end

mutual

/-- Payload strings and keys reachable through the active tag contain no C
whitespace (the hypothesis isolating serializer-produced whitespace from
string content). -/
def wsFreeTree : JSONValue → Bool
  | .mk t s _ _ _ o a =>
    match t with
    | .String => s.data.all (fun c => !isCSpace c)
    | .Object => wsFreeEntries o
    | .Array => wsFreeElems a
    | _ => true

/-- Entry-list form of `wsFreeTree`. -/
def wsFreeEntries : List (String × JSONValue) → Bool
  | [] => true
  | (k, v) :: tl =>
    k.data.all (fun c => !isCSpace c) && wsFreeTree v && wsFreeEntries tl

/-- Element-list form of `wsFreeTree`. -/
def wsFreeElems : List JSONValue → Bool
  | [] => true
  | v :: tl => wsFreeTree v && wsFreeElems tl

end

/-- Invariant carried by the accumulator of each parsing mode: inside the
object loop the entries so far are sorted, contain the empty-string key and
satisfy the parser invariant; inside the array loop the pushed elements
satisfy it. -/
def PModeInv : PMode → Prop
  | .value => True
  | .objLoop acc =>
    keysSorted acc = true ∧ hasEmptyKey acc = true ∧
      parsedInvEntries acc = true
  | .arrLoop acc => parsedInvElems acc = true

/-- Scan asserting that every C-whitespace character in the list is a plain
space immediately preceded by a colon (`prev` is the character before the
list; outputs never start with whitespace, so any non-colon seed works). -/
def wsOnlyColonSpace (prev : Char) : List Char → Bool
  | [] => true
  | c :: r =>
    (if isCSpace c then decide (c = ' ') && decide (prev = ':') else true) &&
      wsOnlyColonSpace c r

/-- Admissible continuations after a serialized value: end of input or one of
the closers/separator the grammar places there.  None of these characters can
extend a number lexeme, so the scans of `parse_number` stop exactly at the
rendered text. -/
def restOk : List Char → Bool
  | [] => true
  | c :: _ => c = ',' ∨ c = '\x7d' ∨ c = ']'

/-! Theorems for the claims, with their supporting lemmas. -/

/-- Claim C7: the as-boolean conversion is exact — a String is false exactly
for the empty string, "false" and "0"; Integer and Number are true exactly
when nonzero; Boolean passes through; Null, Object and Array are false. -/
theorem as_bool_exact (v : JSONValue) :
    (v.get_type = .String →
      (v.as_bool = false ↔
        v.string_value = "" ∨ v.string_value = "false" ∨ v.string_value = "0")) ∧
    (v.get_type = .Integer → (v.as_bool = true ↔ v.int_value ≠ 0)) ∧
    (v.get_type = .Number → (v.as_bool = true ↔ v.double_value ≠ 0)) ∧
    (v.get_type = .Boolean → v.as_bool = v.bool_value) ∧
    (v.get_type = .Null ∨ v.get_type = .Object ∨ v.get_type = .Array →
      v.as_bool = false) := by
  obtain ⟨t, s, i, d, b, o, a⟩ := v
  cases t <;>
    simp [JSONValue.as_bool, JSONValue.get_type, JSONValue.string_value,
      JSONValue.int_value, JSONValue.double_value, JSONValue.bool_value]
  all_goals tauto

/-- Witness for `as_bool_exact` at concrete values of each hypothesis. -/
theorem as_bool_exact_witness :
    (JSONValue.ofString "0").as_bool = false ∧
    (JSONValue.ofInt 3).as_bool = true ∧
    JSONValue.null.as_bool = false :=
  ⟨((as_bool_exact (JSONValue.ofString "0")).1 rfl).mpr (Or.inr (Or.inr rfl)),
   ((as_bool_exact (JSONValue.ofInt 3)).2.1 rfl).mpr (by decide),
   (as_bool_exact JSONValue.null).2.2.2.2 (Or.inl rfl)⟩

/-- Claim C8: `get` off an Object, and `at` off an Array or out of bounds,
return a Null-typed value; `size` is the child count for Array/Object and 0
otherwise. -/
theorem child_access_total (v : JSONValue) (key : String) (i : Nat) :
    (v.get_type ≠ .Object → (v.get key).get_type = .Null) ∧
    ((v.get_type ≠ .Array ∨ v.size ≤ i) → (v.atIndex i).get_type = .Null) ∧
    (v.get_type = .Array → v.size = v.array_values.length) ∧
    (v.get_type = .Object → v.size = v.object_values.length) ∧
    (v.get_type ≠ .Array → v.get_type ≠ .Object → v.size = 0) := by
  obtain ⟨t, s, ii, d, b, o, a⟩ := v
  refine ⟨fun h => ?_, fun h => ?_, fun h => ?_, fun h => ?_, fun h h2 => ?_⟩
  · have ht : ¬t = JType.Object := by simpa [JSONValue.get_type] using h
    simp [JSONValue.get, JSONValue.get_type, ht, JSONValue.null]
  · have hc : (JSONValue.mk t s ii d b o a).get_type ≠ .Array ∨
        (JSONValue.mk t s ii d b o a).array_values.length ≤ i := by
      rcases h with h | h
      · exact Or.inl h
      · by_cases ht : t = JType.Array
        · exact Or.inr (by
            simpa [JSONValue.size, JSONValue.get_type, ht,
              JSONValue.array_values] using h)
        · exact Or.inl (by simp [JSONValue.get_type, ht])
    simp only [JSONValue.atIndex, if_pos hc]
    rfl
  · have ht : t = JType.Array := by simpa [JSONValue.get_type] using h
    simp [JSONValue.size, JSONValue.get_type, ht, JSONValue.array_values]
  · have ht : t = JType.Object := by simpa [JSONValue.get_type] using h
    simp [JSONValue.size, JSONValue.get_type, ht, JSONValue.object_values]
  · have h1 : ¬t = JType.Array := by simpa [JSONValue.get_type] using h
    have h3 : ¬t = JType.Object := by simpa [JSONValue.get_type] using h2
    simp [JSONValue.size, JSONValue.get_type, h1, h3]

/-- Witness for `child_access_total` at a concrete scalar receiver. -/
theorem child_access_total_witness :
    ((JSONValue.ofInt 3).get "k").get_type = .Null ∧
    ((JSONValue.ofInt 3).atIndex 0).get_type = .Null ∧
    (JSONValue.ofInt 3).size = 0 :=
  ⟨(child_access_total (JSONValue.ofInt 3) "k" 0).1 (by decide),
   (child_access_total (JSONValue.ofInt 3) "k" 0).2.1 (Or.inl (by decide)),
   (child_access_total (JSONValue.ofInt 3) "k" 0).2.2.2.2 (by decide) (by decide)⟩

/-- Claim C6: a typed getter returns the caller's default verbatim whenever
the resolved value is Null-typed — whether the key is absent or the input
bound it to an explicit null; in particular both hold after parsing. -/
theorem get_int_null_default :
    (∀ (r : JSONResult) (path : String) (d : Int),
        (r.get_value path).get_type = .Null → r.get_int path d = d) ∧
    (JSONParser.parse "\x7b\"a\":null\x7d").get_int "a" 7 = 7 ∧
    (JSONParser.parse "\x7b\x7d").get_int "a" 7 = 7 := by
  refine ⟨fun r path d h => ?_, rfl, rfl⟩
  simp [JSONResult.get_int, h]

/-- Witness for the universal part of `get_int_null_default`. -/
theorem get_int_null_default_witness :
    (JSONParser.parse "\x7b\"b\":null\x7d").get_int "b" 5 = 5 :=
  get_int_null_default.1 (JSONParser.parse "\x7b\"b\":null\x7d") "b" 5 rfl

/-- Claim C5: an accepted number lexeme yields a Number-kind value exactly
when it contains a point or exponent marker and an Integer-kind value
otherwise; the three standard instances hold, and a lexeme both conversions
reject (here a bare minus) is a fatal parse error. -/
theorem parse_number_dispatch :
    (∀ (l r : List Char) (v : JSONValue),
        parseNumberL l = .ok (v, r) →
        (((numLexeme l).1.contains '.' ∨ (numLexeme l).1.contains 'e' ∨
            (numLexeme l).1.contains 'E') → v.get_type = .Number) ∧
        (¬((numLexeme l).1.contains '.' ∨ (numLexeme l).1.contains 'e' ∨
            (numLexeme l).1.contains 'E') → v.get_type = .Integer)) ∧
    (JSONParser.parse "1").root = JSONValue.ofInt 1 ∧
    (JSONParser.parse "1.0").root = JSONValue.ofDouble 1 ∧
    (JSONParser.parse "1e2").root = JSONValue.ofDouble 100 ∧
    (JSONParser.parse "-").success = false ∧
    (JSONParser.parse "-").error_message = "Invalid number: -" := by
  refine ⟨fun l r v h => ?_, rfl, rfl, rfl, rfl, rfl⟩
  by_cases hc : ((numLexeme l).1.contains '.' ∨ (numLexeme l).1.contains 'e' ∨
      (numLexeme l).1.contains 'E')
  · refine ⟨fun _ => ?_, fun h2 => absurd hc h2⟩
    simp only [parseNumberL, if_pos hc] at h
    cases hs : stodModel (numLexeme l).1 with
    | none => rw [hs] at h; exact absurd h (by simp)
    | some q =>
      rw [hs] at h
      have : JSONValue.ofDouble q = v := congrArg Prod.fst (Except.ok.inj h)
      rw [← this]; rfl
  · refine ⟨fun h2 => absurd h2 hc, fun _ => ?_⟩
    simp only [parseNumberL, if_neg hc] at h
    cases hs : stoiModel (numLexeme l).1 with
    | none => rw [hs] at h; exact absurd h (by simp)
    | some i =>
      rw [hs] at h
      have : JSONValue.ofInt i = v := congrArg Prod.fst (Except.ok.inj h)
      rw [← this]; rfl

/-- Witness for the universal part of `parse_number_dispatch`, on a
fractional and an integral lexeme. -/
theorem parse_number_dispatch_witness :
    (JSONValue.ofDouble (Rat.divInt 3 2)).get_type = .Number ∧
    (JSONValue.ofInt 42).get_type = .Integer :=
  ⟨(parse_number_dispatch.1 ['1', '.', '5'] []
      (JSONValue.ofDouble (Rat.divInt 3 2)) rfl).1 (by decide),
   (parse_number_dispatch.1 ['4', '2'] [] (JSONValue.ofInt 42) rfl).2
      (by decide)⟩

/-- Stepping lemma: a non-dot head is appended to the current component. -/
theorem splitGo_cons_ne (acc : List Char) (c : Char) (r : List Char)
    (hc : ¬c = '.') : splitGo acc (c :: r) = splitGo (acc ++ [c]) r := by
  simp only [splitGo, if_neg hc]

/-- Stepping lemma: a dot emits the current component and resets it. -/
theorem splitGo_cons_dot (acc : List Char) (r : List Char) :
    splitGo acc ('.' :: r) = acc.asString :: splitGo [] r := by
  simp [splitGo]

/-- Getline splitting ignores one trailing dot: appending a dot to a
nonempty path that does not already end in one leaves the components
unchanged (the final getline call extracts nothing and fails). -/
theorem splitGo_append_dot (l : List Char) :
    ∀ acc, l ≠ [] → l.getLast? ≠ some '.' →
      splitGo acc (l ++ ['.']) = splitGo acc l := by
  induction l with
  | nil => exact fun acc h _ => absurd rfl h
  | cons c t ih =>
    intro acc _ h2
    cases t with
    | nil =>
      have hc : ¬c = '.' := by simpa using h2
      rw [List.cons_append, List.nil_append, splitGo_cons_ne acc c ['.'] hc,
        splitGo_cons_dot, splitGo_cons_ne acc c [] hc]
      simp [splitGo]
    | cons c2 t2 =>
      have h2t : (c2 :: t2).getLast? ≠ some '.' := by
        simpa [List.getLast?_cons_cons] using h2
      by_cases hc : c = '.'
      · subst hc
        rw [List.cons_append, splitGo_cons_dot, splitGo_cons_dot]
        exact congrArg _ (ih [] (by simp) h2t)
      · rw [List.cons_append, splitGo_cons_ne acc c _ hc,
          splitGo_cons_ne acc c _ hc]
        exact ih (acc ++ [c]) (by simp) h2t

/-- Characters of a nonempty string, nonempty. -/
theorem data_ne_nil {p : String} (h : p ≠ "") : p.data ≠ [] := by
  intro hd
  apply h
  cases p with
  | mk d => exact congrArg String.mk hd

/-- Claim C3 (amended): resolution splits the path at dots but keeps the
empty segments made by a leading or doubled dot, resolving each as the
empty-string key; only a single trailing dot produces no segment, so exactly
trailing dots are tolerated.  Conjunct one is the trailing-dot tolerance;
conjunct two shows a leading dot first resolving the empty-string key rather
than being skipped. -/
theorem get_value_path_splitting :
    (∀ (root : JSONValue) (p : String), p ≠ "" → p.data.getLast? ≠ some '.' →
        getValuePath root (p ++ ".") = getValuePath root p) ∧
    (∀ (root : JSONValue) (p : String), p ≠ "" →
        getValuePath root ("." ++ p) =
          (if root.get_type = .Object ∧ (root.get "").get_type ≠ .Null then
            getValuePath (root.get "") p
           else JSONValue.null)) := by
  constructor
  · intro root p h1 h2
    have hd : p.data ≠ [] := data_ne_nil h1
    have hd2 : (p ++ ".").data = p.data ++ ['.'] := by
      simp
    have hne : p ++ "." ≠ "" := by
      intro h
      have := congrArg String.data h
      rw [hd2] at this
      simp at this
    rw [getValuePath, if_neg hne, getValuePath, if_neg h1, hd2]
    have hsp : splitGetline (p.data ++ ['.']) = splitGetline p.data := by
      cases hp : p.data with
      | nil => exact absurd hp hd
      | cons c t =>
        rw [← hp]
        have e1 : splitGetline (p.data ++ ['.']) = splitGo [] (p.data ++ ['.']) := by
          rw [hp]; rfl
        have e2 : splitGetline p.data = splitGo [] p.data := by
          rw [hp]; rfl
        rw [e1, e2]
        exact splitGo_append_dot p.data [] hd h2
    rw [hsp]
  · intro root p hp
    have hd : p.data ≠ [] := data_ne_nil hp
    have hd2 : ("." ++ p).data = '.' :: p.data := by
      simp
    have hne : "." ++ p ≠ "" := by
      intro h
      have := congrArg String.data h
      rw [hd2] at this
      simp at this
    rw [getValuePath, if_neg hne, hd2]
    have hsp : splitGetline ('.' :: p.data) = "" :: splitGetline p.data := by
      cases hp2 : p.data with
      | nil => exact absurd hp2 hd
      | cons c t =>
        rw [← hp2]
        have e2 : splitGetline p.data = splitGo [] p.data := by
          rw [hp2]; rfl
        rw [e2]
        rfl
    rw [hsp, walkPath]
    by_cases h1 : root.get_type = .Object
    · by_cases h2 : (root.get "").get_type = .Null
      · simp [h1, h2]
      · simp [h1, h2, getValuePath, hp]
    · simp [h1]

/-- Witness for `get_value_path_splitting` at a parsed root and the paths
"a." (tolerated trailing dot) and ".a" (leading dot resolved as the
empty-string key, yielding Null). -/
theorem get_value_path_splitting_witness :
    getValuePath (JSONParser.parse "\x7b\"a\":1\x7d").root "a."
        = getValuePath (JSONParser.parse "\x7b\"a\":1\x7d").root "a" ∧
    getValuePath (JSONParser.parse "\x7b\"a\":1\x7d").root ".a"
        = JSONValue.null :=
  ⟨get_value_path_splitting.1 (JSONParser.parse "\x7b\"a\":1\x7d").root "a"
      (by decide) (by decide),
   by
    have he : (".a" : String) = "." ++ "a" := rfl
    rw [he, get_value_path_splitting.2 (JSONParser.parse "\x7b\"a\":1\x7d").root
        "a" (by decide)]
    rfl⟩

/-- Counterexample to claim C3 as stated: on the parsed root of a one-key
object, the path ".a" (an empty segment then "a") resolves to a Null-typed
value while the cleaned path "a" resolves to the Integer — empty segments
are not ignored. -/
theorem get_value_empty_segment_cex :
    ((JSONParser.parse "\x7b\"a\":1\x7d").get_value ".a").get_type = .Null ∧
    ((JSONParser.parse "\x7b\"a\":1\x7d").get_value "a").get_type = .Integer ∧
    (JSONParser.parse "\x7b\"a\":1\x7d").get_value ".a"
      ≠ (JSONParser.parse "\x7b\"a\":1\x7d").get_value "a" :=
  ⟨rfl, rfl, fun h => absurd (congrArg JSONValue.get_type h) (by decide)⟩

/-- Appending cannot empty a nonempty string. -/
theorem append_ne_empty_left (a b : String) (h : a ≠ "") : a ++ b ≠ "" := by
  intro hx
  apply h
  have hd := congrArg String.data hx
  simp only [String.data_append] at hd
  have ha : a.data = [] := by
    cases hl : a.data with
    | nil => rfl
    | cons c t => rw [hl] at hd; simp at hd
  cases a with
  | mk d => exact congrArg String.mk ha

/-- Every failure of the string loop carries a nonempty message. -/
theorem parseStringGo_error_ne :
    ∀ (l acc : List Char) (e : String),
      parseStringGo acc l = .error e → e ≠ ""
  | [], acc, e, h => by
    rw [parseStringGo.eq_1] at h
    injection h with h2
    subst h2
    decide
  | [c], acc, e, h => by
    rw [parseStringGo.eq_2] at h
    by_cases hq : c = '"'
    · rw [if_pos hq] at h
      simp at h
    · rw [if_neg hq] at h
      by_cases hb : c = '\\'
      · rw [if_pos hb] at h
        injection h with h2
        subst h2
        decide
      · rw [if_neg hb] at h
        exact parseStringGo_error_ne [] (acc ++ [c]) e h
  | c :: e2 :: r2, acc, e, h => by
    rw [parseStringGo.eq_3] at h
    by_cases hq : c = '"'
    · rw [if_pos hq] at h
      simp at h
    · rw [if_neg hq] at h
      by_cases hb : c = '\\'
      · rw [if_pos hb] at h
        cases hesc : escChar e2 with
        | some ce =>
          rw [hesc] at h
          exact parseStringGo_error_ne r2 (acc ++ [ce]) e h
        | none =>
          rw [hesc] at h
          injection h with h2
          subst h2
          exact append_ne_empty_left _ _ (by decide)
      · rw [if_neg hb] at h
        exact parseStringGo_error_ne (e2 :: r2) (acc ++ [c]) e h
  termination_by l _ _ _ => l.length

/-- Every failure of `parse_string` carries a nonempty message. -/
theorem parseStringL_error_ne (l : List Char) (e : String)
    (h : parseStringL l = .error e) : e ≠ "" := by
  cases l with
  | nil =>
    simp only [parseStringL] at h
    injection h with h2
    subst h2
    decide
  | cons c r =>
    simp only [parseStringL] at h
    by_cases hq : c = '"'
    · rw [if_pos hq] at h
      exact parseStringGo_error_ne r [] e h
    · rw [if_neg hq] at h
      injection h with h2
      subst h2
      decide

/-- Every failure of `parse_number` carries a nonempty message. -/
theorem parseNumberL_error_ne (l : List Char) (e : String)
    (h : parseNumberL l = .error e) : e ≠ "" := by
  simp only [parseNumberL] at h
  split at h
  · cases hs : stodModel (numLexeme l).1 with
    | some q => rw [hs] at h; simp at h
    | none =>
      rw [hs] at h
      injection h with h2
      subst h2
      exact append_ne_empty_left _ _ (by decide)
  · cases hs : stoiModel (numLexeme l).1 with
    | some i => rw [hs] at h; simp at h
    | none =>
      rw [hs] at h
      injection h with h2
      subst h2
      exact append_ne_empty_left _ _ (by decide)

/-- Every failure of the recursive descent carries a nonempty message (each
throw site uses a nonempty literal, and failures propagate unchanged). -/
theorem parseRun_error_ne :
    ∀ (f : Nat) (m : PMode) (l : List Char) (e : String),
      parseRun f m l = .error e → e ≠ "" := by
  intro f
  induction f with
  | zero =>
    intro m l e h
    simp only [parseRun] at h
    injection h with h2
    subst h2
    decide
  | succ n ih =>
    intro m l e h
    cases m <;> simp only [parseRun] at h <;> repeat' (split at h)
    all_goals
      first
        | exact Except.noConfusion h
        | exact ih _ _ _ h
        | exact parseNumberL_error_ne _ _ h
        | (injection h with h2
           subst h2
           first
             | decide
             | exact append_ne_empty_left _ _ (by decide)
             | exact parseStringL_error_ne _ _ (by assumption)
             | exact parseStringGo_error_ne _ _ _ (by assumption)
             | exact parseNumberL_error_ne _ _ (by assumption)
             | exact ih _ _ _ (by assumption))

/-- Claim C1: parse is a total function into the result wrapper — whenever it
reports failure the message is nonempty and the root is the default Null
value; in particular the malformed input from the spec fails that way. -/
theorem parse_failure_contract :
    (∀ s : String, (JSONParser.parse s).success = false →
        (JSONParser.parse s).error_message ≠ "" ∧
        (JSONParser.parse s).root = JSONValue.null) ∧
    ((JSONParser.parse "\x7b\"a\":\x7d").success = false ∧
      (JSONParser.parse "\x7b\"a\":\x7d").error_message ≠ "" ∧
      (JSONParser.parse "\x7b\"a\":\x7d").root = JSONValue.null) := by
  constructor
  · intro s hs
    unfold JSONParser.parse at hs ⊢
    cases hp : parseRun (s.length + 1) .value s.data with
    | ok p =>
      obtain ⟨v, rest⟩ := p
      rw [hp] at hs
      exact absurd (hs : true = false) (fun hx => by cases hx)
    | error e =>
      exact ⟨parseRun_error_ne _ _ _ _ hp, rfl⟩
  · exact ⟨rfl, by decide, rfl⟩

/-- Witness for the universal part of `parse_failure_contract` at another
malformed input. -/
theorem parse_failure_contract_witness :
    (JSONParser.parse "x").error_message ≠ "" ∧
    (JSONParser.parse "x").root = JSONValue.null :=
  parse_failure_contract.1 "x" rfl

/-- Key-order totality: two keys compare one way, the other, or are equal. -/
theorem strLt_total : ∀ (a b : List Char),
    strLt a b = true ∨ a = b ∨ strLt b a = true
  | [], [] => Or.inr (Or.inl rfl)
  | [], _ :: _ => Or.inl rfl
  | _ :: _, [] => Or.inr (Or.inr rfl)
  | a :: as, b :: bs => by
    rcases lt_trichotomy a b with h | h | h
    · exact Or.inl (by simp [strLt, h])
    · subst h
      rcases strLt_total as bs with h2 | h2 | h2
      · exact Or.inl (by simp [strLt, h2])
      · exact Or.inr (Or.inl (by rw [h2]))
      · exact Or.inr (Or.inr (by simp [strLt, h2]))
    · exact Or.inr (Or.inr (by simp [strLt, h]))

/-- Nothing is strictly below the empty key. -/
theorem strLt_nil_right : ∀ a : List Char, strLt a [] = false
  | [] => rfl
  | _ :: _ => rfl

/-- Two strings with equal character data are equal. -/
theorem string_data_eq {a b : String} (h : a.data = b.data) : a = b := by
  cases a
  cases b
  exact congrArg String.mk h

/-- Insertion keeps the strict lower bound of a smaller key. -/
theorem keyBelow_setEntry (k0 : String) (es : List (String × JSONValue))
    (k : String) (v : JSONValue) (hb : keyBelow k0 es = true)
    (hk : strLt k0.data k.data = true) :
    keyBelow k0 (setEntry es k v) = true := by
  cases es with
  | nil => simpa [setEntry, keyBelow] using hk
  | cons p tl =>
    obtain ⟨k2, v2⟩ := p
    simp only [setEntry]
    by_cases h1 : strLt k.data k2.data
    · rw [if_pos h1]
      simpa [keyBelow] using hk
    · rw [if_neg h1]
      by_cases h2 : k = k2
      · rw [if_pos h2]
        simpa [keyBelow] using hk
      · rw [if_neg h2]
        simpa [keyBelow] using hb

/-- Insertion preserves sortedness (the `std::map` shape). -/
theorem setEntry_sorted : ∀ (es : List (String × JSONValue)) (k : String)
    (v : JSONValue), keysSorted es = true → keysSorted (setEntry es k v) = true
  | [], k, v, _ => rfl
  | (k2, v2) :: tl, k, v, hs => by
    have hs1 : keyBelow k2 tl = true := by
      simp only [keysSorted, Bool.and_eq_true] at hs
      exact hs.1
    have hs2 : keysSorted tl = true := by
      simp only [keysSorted, Bool.and_eq_true] at hs
      exact hs.2
    simp only [setEntry]
    by_cases h1 : strLt k.data k2.data
    · rw [if_pos h1]
      simp only [keysSorted, keyBelow, Bool.and_eq_true]
      exact ⟨h1, hs1, hs2⟩
    · rw [if_neg h1]
      by_cases h2 : k = k2
      · rw [if_pos h2]
        simp only [keysSorted, Bool.and_eq_true]
        subst h2
        exact ⟨hs1, hs2⟩
      · rw [if_neg h2]
        have hk : strLt k2.data k.data = true := by
          rcases strLt_total k.data k2.data with h | h | h
          · exact absurd h h1
          · exact absurd (string_data_eq h) h2
          · exact h
        simp only [keysSorted, Bool.and_eq_true]
        exact ⟨keyBelow_setEntry k2 tl k v hs1 hk, setEntry_sorted tl k v hs2⟩

/-- Insertion preserves the presence of the empty-string key. -/
theorem setEntry_hasEmpty : ∀ (es : List (String × JSONValue)) (k : String)
    (v : JSONValue), hasEmptyKey es = true → hasEmptyKey (setEntry es k v) = true
  | [], k, v, he => by simp [hasEmptyKey] at he
  | (k2, v2) :: tl, k, v, he => by
    have he2 : k2 = "" ∨ hasEmptyKey tl = true := by
      simpa [hasEmptyKey, decide_eq_true_eq] using he
    simp only [setEntry]
    by_cases h1 : strLt k.data k2.data
    · rw [if_pos h1]
      rcases he2 with h | h
      · simp [hasEmptyKey, h]
      · simp only [hasEmptyKey, List.any_cons, Bool.or_eq_true]
        right; right
        simpa [hasEmptyKey] using h
    · rw [if_neg h1]
      by_cases h2 : k = k2
      · rw [if_pos h2]
        rcases he2 with h | h
        · subst h2
          simp [hasEmptyKey, h]
        · simp only [hasEmptyKey, List.any_cons, Bool.or_eq_true]
          right
          simpa [hasEmptyKey] using h
      · rw [if_neg h2]
        rcases he2 with h | h
        · simp [hasEmptyKey, h]
        · simp only [hasEmptyKey, List.any_cons, Bool.or_eq_true]
          right
          have := setEntry_hasEmpty tl k v h
          simpa [hasEmptyKey] using this

/-- Insertion preserves the parser invariant of the stored values. -/
theorem setEntry_entriesInv : ∀ (es : List (String × JSONValue)) (k : String)
    (v : JSONValue), parsedInvEntries es = true → parsedInv v = true →
    parsedInvEntries (setEntry es k v) = true
  | [], k, v, _, hv => by simp [setEntry, parsedInvEntries, hv]
  | (k2, v2) :: tl, k, v, he, hv => by
    have h1 : parsedInv v2 = true := by
      simp only [parsedInvEntries, Bool.and_eq_true] at he
      exact he.1
    have h2 : parsedInvEntries tl = true := by
      simp only [parsedInvEntries, Bool.and_eq_true] at he
      exact he.2
    simp only [setEntry]
    by_cases hc1 : strLt k.data k2.data
    · rw [if_pos hc1]
      simp [parsedInvEntries, hv, h1, h2]
    · rw [if_neg hc1]
      by_cases hc2 : k = k2
      · rw [if_pos hc2]
        simp [parsedInvEntries, hv, h2]
      · rw [if_neg hc2]
        simp [parsedInvEntries, h1, setEntry_entriesInv tl k v h2 hv]

/-- Invariant of an assembled object value. -/
theorem parsedInv_mkObj (es : List (String × JSONValue))
    (hs : keysSorted es = true) (he : hasEmptyKey es = true)
    (hp : parsedInvEntries es = true) : parsedInv (mkObj es) = true := by
  simp [parsedInv, mkObj, parsedInvElems, hs, he, hp]

/-- Appending an invariant element keeps the element-list invariant. -/
theorem parsedInvElems_append : ∀ (xs : List JSONValue) (v : JSONValue),
    parsedInvElems xs = true → parsedInv v = true →
    parsedInvElems (xs ++ [v]) = true
  | [], v, _, hv => by simp [parsedInvElems, hv]
  | x :: tl, v, hx, hv => by
    simp only [parsedInvElems, Bool.and_eq_true] at hx
    simp only [List.cons_append, parsedInvElems, Bool.and_eq_true]
    exact ⟨hx.1, parsedInvElems_append tl v hx.2 hv⟩

/-- Invariant of an assembled array value. -/
theorem parsedInv_mkArr (xs : List JSONValue)
    (hx : parsedInvElems xs = true) : parsedInv (mkArr xs) = true := by
  by_cases he : xs.isEmpty
  · simp [mkArr, he]
    rfl
  · simp only [mkArr, if_neg he]
    simp [parsedInv, parsedInvEntries, hx]

/-- Values produced by `parse_number` satisfy the parser invariant. -/
theorem parseNumberL_inv (l : List Char) (v : JSONValue) (r : List Char)
    (h : parseNumberL l = .ok (v, r)) : parsedInv v = true := by
  simp only [parseNumberL] at h
  split at h
  · cases hs : stodModel (numLexeme l).1 with
    | none => rw [hs] at h; exact Except.noConfusion h
    | some q =>
      rw [hs] at h
      injection h with h2
      injection h2 with h3 h4
      subst h3
      rfl
  · cases hs : stoiModel (numLexeme l).1 with
    | none => rw [hs] at h; exact Except.noConfusion h
    | some i =>
      rw [hs] at h
      injection h with h2
      injection h2 with h3 h4
      subst h3
      rfl

/-- Introduction form of the object-loop accumulator invariant. -/
theorem PModeInv_obj (acc : List (String × JSONValue))
    (h1 : keysSorted acc = true) (h2 : hasEmptyKey acc = true)
    (h3 : parsedInvEntries acc = true) : PModeInv (.objLoop acc) := by
  simp only [PModeInv]
  exact ⟨h1, h2, h3⟩

/-- Introduction form of the array-loop accumulator invariant. -/
theorem PModeInv_arr (acc : List JSONValue)
    (h : parsedInvElems acc = true) : PModeInv (.arrLoop acc) := by
  simp only [PModeInv]
  exact h

/-- Every value the parser returns satisfies the parser invariant (sorted
object maps, each containing the empty-string key seeded by
`parse_object`). -/
theorem parseRun_inv :
    ∀ (f : Nat) (m : PMode) (l : List Char) (v : JSONValue) (r : List Char),
      PModeInv m → parseRun f m l = .ok (v, r) → parsedInv v = true := by
  intro f
  induction f with
  | zero =>
    intro m l v r _ h
    simp only [parseRun] at h
    exact Except.noConfusion h
  | succ n ih =>
    intro m l v r hm h
    cases m with
    | value =>
      simp only [parseRun] at h
      repeat' (split at h)
      all_goals first
        | exact Except.noConfusion h
        | exact ih _ _ _ _ trivial h
        | (refine ih _ _ _ _ ?_ h
           exact PModeInv_obj _ rfl rfl rfl)
        | (refine ih _ _ _ _ ?_ h
           exact PModeInv_arr _ rfl)
        | exact parseNumberL_inv _ _ _ h
        | (injection h with h2
           injection h2 with h3 h4
           subst h3
           rfl)
    | objLoop acc =>
      obtain ⟨hs, he, hp⟩ := hm
      simp only [parseRun] at h
      repeat' (split at h)
      all_goals first
        | exact Except.noConfusion h
        | (injection h with h2
           injection h2 with h3 h4
           subst h3
           first
             | exact parsedInv_mkObj acc hs he hp
             | exact parsedInv_mkObj _ (setEntry_sorted _ _ _ hs)
                 (setEntry_hasEmpty _ _ _ he)
                 (setEntry_entriesInv _ _ _ hp
                   (ih .value _ _ _ trivial (by assumption))))
        | (refine ih _ _ _ _ ?_ h
           exact PModeInv_obj _ (setEntry_sorted _ _ _ hs)
             (setEntry_hasEmpty _ _ _ he)
             (setEntry_entriesInv _ _ _ hp
               (ih .value _ _ _ trivial (by assumption))))
    | arrLoop acc =>
      have ha : parsedInvElems acc = true := hm
      simp only [parseRun] at h
      repeat' (split at h)
      all_goals first
        | exact Except.noConfusion h
        | (injection h with h2
           injection h2 with h3 h4
           subst h3
           first
             | exact parsedInv_mkArr acc ha
             | exact parsedInv_mkArr _
                 (parsedInvElems_append _ _ ha
                   (ih .value _ _ _ trivial (by assumption))))
        | (refine ih _ _ _ _ ?_ h
           exact PModeInv_arr _ (parsedInvElems_append _ _ ha
             (ih .value _ _ _ trivial (by assumption))))

/-- In a sorted entry list containing the empty-string key, that key is the
first entry (the empty string is the strict minimum of the key order). -/
theorem sorted_empty_head : ∀ (es : List (String × JSONValue)),
    keysSorted es = true → hasEmptyKey es = true →
    ∃ w tl, es = ("", w) :: tl
  | [], _, he => by simp [hasEmptyKey] at he
  | (k, w) :: tl, hs, he => by
    by_cases hk : k = ""
    · subst hk
      exact ⟨w, tl, rfl⟩
    · have hor : k = "" ∨ hasEmptyKey tl = true := by
        simpa [hasEmptyKey, decide_eq_true_eq] using he
      have he2 : hasEmptyKey tl = true := by
        rcases hor with h | h
        · exact absurd h hk
        · exact h
      have hs1 : keyBelow k tl = true := by
        simp only [keysSorted, Bool.and_eq_true] at hs
        exact hs.1
      have hs2 : keysSorted tl = true := by
        simp only [keysSorted, Bool.and_eq_true] at hs
        exact hs.2
      obtain ⟨w2, tl2, htl⟩ := sorted_empty_head tl hs2 he2
      subst htl
      have hlt : strLt k.data [] = true := hs1
      rw [strLt_nil_right] at hlt
      exact Bool.noConfusion hlt

/-- Splitting a dot-free nonempty path yields the single whole component. -/
theorem splitGo_no_dot : ∀ (l acc : List Char), l ≠ [] →
    (∀ c ∈ l, c ≠ '.') → splitGo acc l = [(acc ++ l).asString]
  | [], _, h, _ => absurd rfl h
  | c :: t, acc, _, hd => by
    have hc : ¬c = '.' := hd c (by simp)
    rw [splitGo_cons_ne acc c t hc]
    cases t with
    | nil => simp [splitGo]
    | cons c2 t2 =>
      rw [splitGo_no_dot (c2 :: t2) (acc ++ [c]) (by simp)
        (fun x hx => hd x (by simp [hx]))]
      simp

/-- Characters of a string reassemble to the string. -/
theorem data_asString (s : String) : s.data.asString = s := by
  cases s
  rfl

/-- Presence of the empty key means the empty string is among the keys. -/
theorem hasEmptyKey_mem (es : List (String × JSONValue))
    (h : hasEmptyKey es = true) : "" ∈ es.map Prod.fst := by
  simp only [hasEmptyKey, List.any_eq_true, decide_eq_true_eq] at h
  obtain ⟨p, hp, hk⟩ := h
  exact hk ▸ List.mem_map.mpr ⟨p, hp, rfl⟩

mutual

/-- Sorted-and-seeded implies the weaker every-object-has-empty-key. -/
theorem parsedInv_eohk : ∀ (v : JSONValue), parsedInv v = true →
    everyObjectHasEmptyKey v = true
  | .mk t s i d b o a, h => by
    simp only [parsedInv, Bool.and_eq_true] at h
    obtain ⟨⟨h1, h2⟩, h3⟩ := h
    simp only [everyObjectHasEmptyKey, Bool.and_eq_true]
    refine ⟨⟨?_, parsedInv_eohk_entries o h2⟩, parsedInv_eohk_elems a h3⟩
    by_cases ht : t = .Object
    · rw [if_pos ht]
      rw [if_pos ht] at h1
      simp only [Bool.and_eq_true] at h1
      exact h1.2
    · rw [if_neg ht]

/-- Entry-list form of `parsedInv_eohk`. -/
theorem parsedInv_eohk_entries : ∀ (es : List (String × JSONValue)),
    parsedInvEntries es = true → everyObjectHasEmptyKeyEntries es = true
  | [], _ => rfl
  | (k, v) :: tl, h => by
    simp only [parsedInvEntries, Bool.and_eq_true] at h
    simp only [everyObjectHasEmptyKeyEntries, Bool.and_eq_true]
    exact ⟨parsedInv_eohk v h.1, parsedInv_eohk_entries tl h.2⟩

/-- Element-list form of `parsedInv_eohk`. -/
theorem parsedInv_eohk_elems : ∀ (xs : List JSONValue),
    parsedInvElems xs = true → everyObjectHasEmptyKeyElems xs = true
  | [], _ => rfl
  | v :: tl, h => by
    simp only [parsedInvElems, Bool.and_eq_true] at h
    simp only [everyObjectHasEmptyKeyElems, Bool.and_eq_true]
    exact ⟨parsedInv_eohk v h.1, parsedInv_eohk_elems tl h.2⟩

end

/-- Roots of successful parses satisfy the parser invariant. -/
theorem parse_root_inv (s : String)
    (h : (JSONParser.parse s).success = true) :
    parsedInv (JSONParser.parse s).root = true := by
  unfold JSONParser.parse at h ⊢
  cases hp : parseRun (s.length + 1) .value s.data with
  | ok p =>
    obtain ⟨v, rest⟩ := p
    exact parseRun_inv _ .value _ _ _ trivial hp
  | error e =>
    rw [hp] at h
    exact absurd (h : false = true) (fun hx => by cases hx)

/-- Key listing and single-key path behaviour of a result whose root is an
invariant-satisfying Object. -/
theorem result_keys_paths (r : JSONResult)
    (hobj : r.root.get_type = .Object) (hinv : parsedInv r.root = true) :
    r.get_keys "" = r.root.get_keys ∧
    "" ∈ r.get_keys "" ∧
    (∀ k, k ∈ r.get_keys "" → k ≠ "" → (∀ c ∈ k.data, c ≠ '.') →
      (r.root.get k).get_type ≠ .Null → r.has_path k = true) := by
  obtain ⟨su, em, root⟩ := r
  obtain ⟨t, s2, i, d, b, o, a⟩ := root
  have ht : t = .Object := by simpa [JSONValue.get_type] using hobj
  subst ht
  have hinv2 : (((keysSorted o && hasEmptyKey o) && parsedInvEntries o) &&
      parsedInvElems a) = true := hinv
  simp only [Bool.and_eq_true] at hinv2
  obtain ⟨⟨⟨hs, he⟩, hpe⟩, hpa⟩ := hinv2
  have hval : JSONResult.get_value ⟨su, em, .mk .Object s2 i d b o a⟩ "" =
      .mk .Object s2 i d b o a := rfl
  have hkeys : JSONResult.get_keys ⟨su, em, .mk .Object s2 i d b o a⟩ "" =
      o.map Prod.fst := by
    simp [JSONResult.get_keys, hval, JSONValue.get_keys, JSONValue.get_type,
      JSONValue.object_values]
  refine ⟨by simp [hkeys, JSONValue.get_keys, JSONValue.get_type,
      JSONValue.object_values], ?_, ?_⟩
  · rw [hkeys]
    exact hasEmptyKey_mem o he
  · intro k hk hne hnd hnn
    have hdn : k.data ≠ [] := data_ne_nil hne
    have hsplit : splitGetline k.data = [k] := by
      cases hd : k.data with
      | nil => exact absurd hd hdn
      | cons c t2 =>
        rw [← hd]
        have e1 : splitGetline k.data = splitGo [] k.data := by
          rw [hd]
          rfl
        rw [e1, splitGo_no_dot k.data [] hdn hnd]
        simp [data_asString]
    have hval2 : JSONResult.get_value ⟨su, em, .mk .Object s2 i d b o a⟩ k =
        (JSONValue.mk .Object s2 i d b o a).get k := by
      simp only [JSONResult.get_value, getValuePath, if_neg hne, hsplit,
        walkPath]
      rw [if_neg (by simp [JSONValue.get_type])]
      rw [if_neg hnn]
    simp only [JSONResult.has_path, hval2]
    simpa using hnn

/-- Claim C2 (amended): on a successfully parsed Object root, the key listing
returns the root object's stored keys — which always include the parser's
empty-string placeholder — and path lookup succeeds for each listed key that
is nonempty, dot-free and bound to a non-Null value. -/
theorem get_keys_has_path_amended (s : String)
    (hsucc : (JSONParser.parse s).success = true)
    (hobj : (JSONParser.parse s).root.get_type = .Object) :
    (JSONParser.parse s).get_keys "" = (JSONParser.parse s).root.get_keys ∧
    "" ∈ (JSONParser.parse s).get_keys "" ∧
    (∀ k, k ∈ (JSONParser.parse s).get_keys "" → k ≠ "" →
      (∀ c ∈ k.data, c ≠ '.') →
      ((JSONParser.parse s).root.get k).get_type ≠ .Null →
      (JSONParser.parse s).has_path k = true) :=
  result_keys_paths (JSONParser.parse s) hobj (parse_root_inv s hsucc)

/-- Witness for `get_keys_has_path_amended` on a one-key literal. -/
theorem get_keys_has_path_amended_witness :
    "" ∈ (JSONParser.parse "\x7b\"a\":1\x7d").get_keys "" ∧
    (JSONParser.parse "\x7b\"a\":1\x7d").has_path "a" = true :=
  ⟨(get_keys_has_path_amended "\x7b\"a\":1\x7d" rfl rfl).2.1,
   (get_keys_has_path_amended "\x7b\"a\":1\x7d" rfl rfl).2.2 "a"
     (by decide) (by decide) (by decide) (by decide)⟩

/-- Counterexample to claim C2 as stated: for the literal with single
top-level key "a" bound to null, the key listing is ["", "a"], not ["a"],
and has_path("a") is false. -/
theorem get_keys_has_path_cex :
    (JSONParser.parse "\x7b\"a\":null\x7d").success = true ∧
    (JSONParser.parse "\x7b\"a\":null\x7d").get_keys "" = ["", "a"] ∧
    (JSONParser.parse "\x7b\"a\":null\x7d").get_keys "" ≠ ["a"] ∧
    (JSONParser.parse "\x7b\"a\":null\x7d").has_path "a" = false :=
  ⟨rfl, rfl, by decide, rfl⟩

/-- Serialization of an object whose first entry is the empty-string member
starts with that member's text. -/
theorem serialize_obj_head (s2 : String) (i : Int) (d : Rat) (b : Bool)
    (a : List JSONValue) (w : JSONValue) (tl : List (String × JSONValue)) :
    ∃ t : String,
      valueToString (.mk .Object s2 i d b (("", w) :: tl) a) 0 false =
        "\x7b\"\": " ++ t := by
  have d1 : ("\x7b" : String).data = ['\x7b'] := rfl
  have d2 : ("" : String).data = ([] : List Char) := rfl
  have d3 : ("\"" : String).data = ['"'] := rfl
  have d4 : ("\": " : String).data = ['"', ':', ' '] := rfl
  have d5 : ("\x7d" : String).data = ['\x7d'] := rfl
  have d6 : ("\x7b\"\": " : String).data = ['\x7b', '"', '"', ':', ' '] := rfl
  have d7 : ("," : String).data = [','] := rfl
  cases tl with
  | nil =>
    refine ⟨valueToString w 1 false ++ "\x7d", ?_⟩
    apply string_data_eq
    simp [valueToString, entriesToString, String.data_append, d1, d2, d3, d4,
      d5, d6, d7]
  | cons p tl2 =>
    refine ⟨valueToString w 1 false ++ ("," ++ entriesToString (p :: tl2) 0
      false) ++ "\x7d", ?_⟩
    apply string_data_eq
    simp [valueToString, entriesToString, String.data_append, d1, d2, d3, d4,
      d5, d6, d7]

/-- Claim C10: every Object node the parser builds (root or nested, in
either payload list) carries an entry for the empty-string key; the key
listing of a parsed Object root therefore includes ""; serializing an
invariant-satisfying Object emits the empty-string member (first, since ""
is the minimal key); and that member holds Null unless the literal supplies
a "" key, shown at both concrete literals. -/
theorem parsed_objects_carry_empty_key :
    (∀ s : String, (JSONParser.parse s).success = true →
        everyObjectHasEmptyKey (JSONParser.parse s).root = true) ∧
    (∀ s : String, (JSONParser.parse s).success = true →
        (JSONParser.parse s).root.get_type = .Object →
        "" ∈ (JSONParser.parse s).get_keys "") ∧
    (∀ v : JSONValue, parsedInv v = true → v.get_type = .Object →
        ∃ t : String, valueToString v 0 false = "\x7b\"\": " ++ t) ∧
    (JSONParser.parse "\x7b\"x\":1\x7d").root.get "" = JSONValue.null ∧
    (JSONParser.parse "\x7b\"\":2\x7d").root.get "" = JSONValue.ofInt 2 := by
  refine ⟨?_, ?_, ?_, rfl, rfl⟩
  · intro s hs
    exact parsedInv_eohk _ (parse_root_inv s hs)
  · intro s hs hobj
    exact (result_keys_paths (JSONParser.parse s) hobj
      (parse_root_inv s hs)).2.1
  · intro v hinv hobj
    obtain ⟨t, s2, i, d, b, o, a⟩ := v
    have ht : t = .Object := by simpa [JSONValue.get_type] using hobj
    subst ht
    have hinv2 : (((keysSorted o && hasEmptyKey o) && parsedInvEntries o) &&
        parsedInvElems a) = true := hinv
    simp only [Bool.and_eq_true] at hinv2
    obtain ⟨⟨⟨hs, he⟩, hpe⟩, hpa⟩ := hinv2
    obtain ⟨w, tl, ho⟩ := sorted_empty_head o hs he
    subst ho
    exact serialize_obj_head s2 i d b a w tl

/-- Witness for `parsed_objects_carry_empty_key` at a concrete parse. -/
theorem parsed_objects_carry_empty_key_witness :
    everyObjectHasEmptyKey (JSONParser.parse "\x7b\"x\":1\x7d").root = true ∧
    "" ∈ (JSONParser.parse "\x7b\"x\":1\x7d").get_keys "" ∧
    (∃ t : String,
      valueToString (JSONParser.parse "\x7b\"x\":1\x7d").root 0 false =
        "\x7b\"\": " ++ t) :=
  ⟨parsed_objects_carry_empty_key.1 "\x7b\"x\":1\x7d" rfl,
   parsed_objects_carry_empty_key.2.1 "\x7b\"x\":1\x7d" rfl rfl,
   parsed_objects_carry_empty_key.2.2.1 (JSONParser.parse "\x7b\"x\":1\x7d").root
     (parse_root_inv "\x7b\"x\":1\x7d" rfl) rfl⟩

/-- Character data of string literals used by the serializer. -/
theorem data_quote : ("\"" : String).data = ['"'] := rfl

/-- Character data of the key separator the serializer emits. -/
theorem data_colon_space : ("\": " : String).data = ['"', ':', ' '] := rfl

/-- Character data of the opening brace literal. -/
theorem data_lbrace : ("\x7b" : String).data = ['\x7b'] := rfl

/-- Character data of the closing brace literal. -/
theorem data_rbrace : ("\x7d" : String).data = ['\x7d'] := rfl

/-- Character data of the opening bracket literal. -/
theorem data_lbrack : ("[" : String).data = ['['] := rfl

/-- Character data of the closing bracket literal. -/
theorem data_rbrack : ("]" : String).data = [']'] := rfl

/-- Character data of the comma literal. -/
theorem data_comma : ("," : String).data = [','] := rfl

/-- Character data of the empty string literal. -/
theorem data_empty : ("" : String).data = ([] : List Char) := rfl

/-- Character data of the true literal. -/
theorem data_true : ("true" : String).data = ['t', 'r', 'u', 'e'] := rfl

/-- Character data of the false literal. -/
theorem data_false : ("false" : String).data = ['f', 'a', 'l', 's', 'e'] := rfl

/-- Character data of the null literal. -/
theorem data_null : ("null" : String).data = ['n', 'u', 'l', 'l'] := rfl

/-- Character data of a reassembled character list. -/
theorem asString_data (l : List Char) : l.asString.data = l := rfl

/-- Digit characters for digits below ten. -/
theorem digitChar_isDigit (n : Nat) (h : n < 10) :
    (Nat.digitChar n).isDigit = true := by
  interval_cases n <;> decide

/-- All characters of a rendered natural number are digits. -/
theorem natReprAux_digits : ∀ (f n : Nat) (c : Char),
    c ∈ natReprAux f n → c.isDigit = true
  | 0, n, c, hc => by simp [natReprAux] at hc
  | f + 1, n, c, hc => by
    simp only [natReprAux] at hc
    by_cases h : n < 10
    · rw [if_pos h] at hc
      simp only [List.mem_singleton] at hc
      subst hc
      exact digitChar_isDigit n h
    · rw [if_neg h] at hc
      rcases List.mem_append.mp hc with h2 | h2
      · exact natReprAux_digits f (n / 10) c h2
      · simp only [List.mem_singleton] at h2
        subst h2
        exact digitChar_isDigit _ (Nat.mod_lt _ (by omega))

/-- Digits are not C whitespace. -/
theorem digit_not_csp (c : Char) (h : c.isDigit = true) : isCSpace c = false := by
  simp only [isCSpace, decide_eq_false_iff_not]
  rintro (rfl | rfl | rfl | rfl | rfl | rfl) <;> simp_all

/-- Rendered ints contain no C whitespace. -/
theorem intRepr_not_csp (i : Int) (c : Char) (hc : c ∈ intRepr i) :
    isCSpace c = false := by
  simp only [intRepr] at hc
  by_cases h : i < 0
  · rw [if_pos h] at hc
    rcases List.mem_cons.mp hc with h2 | h2
    · subst h2; decide
    · exact digit_not_csp c (natReprAux_digits _ _ c h2)
  · rw [if_neg h] at hc
    exact digit_not_csp c (natReprAux_digits _ _ c hc)

/-- Formatted doubles contain no C whitespace. -/
theorem toString6_not_csp (q : Rat) (c : Char) (hc : c ∈ (toString6 q).data) :
    isCSpace c = false := by
  simp only [toString6, asString_data] at hc
  rcases List.mem_append.mp hc with h2 | h2
  · rcases List.mem_append.mp h2 with h3 | h3
    · rcases List.mem_append.mp h3 with h4 | h4
      · by_cases hn : q.num < 0
        · rw [if_pos hn] at h4
          simp only [List.mem_singleton] at h4
          subst h4; decide
        · rw [if_neg hn] at h4
          simp at h4
      · exact digit_not_csp c (natReprAux_digits _ _ c h4)
    · simp only [List.mem_singleton] at h3
      subst h3; decide
  · rcases List.mem_append.mp h2 with h3 | h3
    · have : c = '0' := by
        simpa using List.eq_of_mem_replicate h3
      subst this; decide
    · exact digit_not_csp c (natReprAux_digits _ _ c h3)

/-- A list with no C whitespace passes the colon-space scan from any
previous character. -/
theorem nows_wsOk : ∀ (l : List Char), (∀ c ∈ l, isCSpace c = false) →
    ∀ q, wsOnlyColonSpace q l = true
  | [], _, q => rfl
  | c :: t, h, q => by
    have hc : isCSpace c = false := h c (by simp)
    simp only [wsOnlyColonSpace, hc, Bool.false_eq_true, if_false,
      Bool.true_and]
    exact nows_wsOk t (fun x hx => h x (by simp [hx])) c

/-- Appending a scan-passing suffix that passes from every previous
character preserves the scan. -/
theorem wsOk_append : ∀ (a b : List Char),
    (∀ q, wsOnlyColonSpace q b = true) →
    ∀ q, wsOnlyColonSpace q a = true → wsOnlyColonSpace q (a ++ b) = true
  | [], b, hb, q, _ => hb q
  | c :: t, b, hb, q, h => by
    simp only [wsOnlyColonSpace, Bool.and_eq_true] at h
    simp only [List.cons_append, wsOnlyColonSpace, Bool.and_eq_true]
    exact ⟨h.1, wsOk_append t b hb c h.2⟩

/-- Combination form of `wsOk_append` for prev-independent chunks. -/
theorem wsOk_append_all (a b : List Char)
    (ha : ∀ q, wsOnlyColonSpace q a = true)
    (hb : ∀ q, wsOnlyColonSpace q b = true) :
    ∀ q, wsOnlyColonSpace q (a ++ b) = true :=
  fun q => wsOk_append a b hb q (ha q)

/-- A non-whitespace head may be prepended to a passing scan. -/
theorem wsOk_cons (c : Char) (hc : isCSpace c = false) (t : List Char)
    (ht : wsOnlyColonSpace c t = true) :
    ∀ q, wsOnlyColonSpace q (c :: t) = true := by
  intro q
  simp [wsOnlyColonSpace, hc, ht]

mutual

/-- Compact serializer output only contains whitespace as the space after a
colon, for trees whose reachable payload strings and keys are
whitespace-free; stated from an arbitrary previous character since the
output never begins with whitespace. -/
theorem wsOk_val : ∀ (v : JSONValue), wsFreeTree v = true →
    ∀ (ind : Nat) (q : Char),
    wsOnlyColonSpace q (valueToString v ind false).data = true
  | .mk t s i d b o a, h, ind, q => by
    cases t with
    | String =>
      have h2 : s.data.all (fun c => !isCSpace c) = true := h
      have hs : ∀ c ∈ s.data, isCSpace c = false := by
        intro c hc
        simpa using List.all_eq_true.mp h2 c hc
      exact nows_wsOk ('"' :: (s.data ++ ['"']))
        (by
          intro c hc
          rcases List.mem_cons.mp hc with h3 | h3
          · subst h3; decide
          · rcases List.mem_append.mp h3 with h4 | h4
            · exact hs c h4
            · simp only [List.mem_singleton] at h4
              subst h4; decide) q
    | Integer =>
      exact nows_wsOk (intRepr i) (fun c hc => intRepr_not_csp i c hc) q
    | Number =>
      exact nows_wsOk ((toString6 d).data) (fun c hc => toString6_not_csp d c hc) q
    | Boolean =>
      cases b with
      | false => exact nows_wsOk ['f', 'a', 'l', 's', 'e'] (by decide) q
      | true => exact nows_wsOk ['t', 'r', 'u', 'e'] (by decide) q
    | Null =>
      exact nows_wsOk ['n', 'u', 'l', 'l'] (by decide) q
    | Object =>
      have ho : wsFreeEntries o = true := h
      exact wsOk_cons '\x7b' (by decide)
        ((((entriesToString o ind false).data ++ []) ++ []) ++ ['\x7d'])
        (wsOk_append _ ['\x7d'] (nows_wsOk _ (by decide)) '\x7b'
          (wsOk_append _ [] (fun q2 => rfl) '\x7b'
            (wsOk_append _ [] (fun q2 => rfl) '\x7b'
              (wsOk_entries o ho ind '\x7b')))) q
    | Array =>
      have ha : wsFreeElems a = true := h
      exact wsOk_cons '[' (by decide)
        ((((elemsToString a ind false).data ++ []) ++ []) ++ [']'])
        (wsOk_append _ [']'] (nows_wsOk _ (by decide)) '['
          (wsOk_append _ [] (fun q2 => rfl) '['
            (wsOk_append _ [] (fun q2 => rfl) '['
              (wsOk_elems a ha ind '[')))) q

/-- Entry-list form of `wsOk_val`. -/
theorem wsOk_entries : ∀ (es : List (String × JSONValue)),
    wsFreeEntries es = true → ∀ (ind : Nat) (q : Char),
    wsOnlyColonSpace q (entriesToString es ind false).data = true
  | [], _, ind, q => rfl
  | (k, v) :: tl, h, ind, q => by
    have hparts : ((k.data.all (fun c => !isCSpace c) && wsFreeTree v) &&
        wsFreeEntries tl) = true := h
    simp only [Bool.and_eq_true] at hparts
    obtain ⟨⟨hk, hv⟩, htl⟩ := hparts
    have hknows : ∀ c ∈ k.data, isCSpace c = false := by
      intro c hc
      simpa using List.all_eq_true.mp hk c hc
    have hquote : ∀ q2, wsOnlyColonSpace q2 (k.data ++ ['"', ':', ' ']) →
        True := fun _ _ => trivial
    have hx : wsOnlyColonSpace '"' (k.data ++ ['"', ':', ' ']) = true :=
      wsOk_append k.data ['"', ':', ' '] (fun q2 => rfl) '"'
        (nows_wsOk k.data hknows '"')
    cases tl with
    | nil =>
      exact wsOk_cons '"' (by decide)
        (((k.data ++ ['"', ':', ' ']) ++ (valueToString v (ind + 1) false).data)
          ++ [])
        (wsOk_append _ [] (fun q2 => rfl) '"'
          (wsOk_append _ _ (wsOk_val v hv (ind + 1)) '"' hx)) q
    | cons p tl2 =>
      exact wsOk_cons '"' (by decide)
        (((k.data ++ ['"', ':', ' ']) ++ (valueToString v (ind + 1) false).data)
          ++ (',' :: (entriesToString (p :: tl2) ind false).data))
        (wsOk_append _ _
          (wsOk_cons ',' (by decide) _
            (wsOk_entries (p :: tl2) htl ind ','))
          '"'
          (wsOk_append _ _ (wsOk_val v hv (ind + 1)) '"' hx)) q

/-- Element-list form of `wsOk_val`. -/
theorem wsOk_elems : ∀ (xs : List JSONValue),
    wsFreeElems xs = true → ∀ (ind : Nat) (q : Char),
    wsOnlyColonSpace q (elemsToString xs ind false).data = true
  | [], _, ind, q => rfl
  | x :: tl, h, ind, q => by
    have hparts : (wsFreeTree x && wsFreeElems tl) = true := h
    simp only [Bool.and_eq_true] at hparts
    obtain ⟨hx, htl⟩ := hparts
    cases tl with
    | nil =>
      exact wsOk_append ((valueToString x (ind + 1) false).data) []
        (fun q2 => rfl) q (wsOk_val x hx (ind + 1) q)
    | cons p tl2 =>
      exact wsOk_append ((valueToString x (ind + 1) false).data)
        (',' :: (elemsToString (p :: tl2) ind false).data)
        (wsOk_cons ',' (by decide) _
          (wsOk_elems (p :: tl2) htl ind ','))
        q (wsOk_val x hx (ind + 1) q)

end

/-- A scan-passing list contains no newline: a newline is C whitespace but
is not the space character the scan demands. -/
theorem wsOk_no_newline : ∀ (l : List Char) (q : Char),
    wsOnlyColonSpace q l = true →
    l.all (fun c => !decide (c = '\n')) = true
  | [], _, _ => rfl
  | c :: t, q, h => by
    simp only [wsOnlyColonSpace, Bool.and_eq_true] at h
    simp only [List.all_cons, Bool.and_eq_true]
    refine ⟨?_, wsOk_no_newline t c h.2⟩
    by_cases hc : c = '\n'
    · subst hc
      have h1 := h.1
      rw [if_pos (by decide)] at h1
      rw [Bool.and_eq_true] at h1
      exact absurd h1.1 (by decide)
    · simp [hc]

/-- Claim C9 (counterexample): the compact serializer is not free of
whitespace beyond the separators `,` and `:` — it prints a space after each
member colon. The tree `{"a": 1}` has whitespace-free key and payload
content, yet its compact rendering contains a space. -/
theorem serialize_whitespace_cex :
    wsFreeTree (.mk .Object "" 0 0 false [("a", JSONValue.ofInt 1)] [])
      = true ∧
    JSONParser.to_string
        ⟨true, "", .mk .Object "" 0 0 false [("a", JSONValue.ofInt 1)] []⟩
        false
      = "\x7b\"a\": 1\x7d" ∧
    (JSONParser.to_string
        ⟨true, "", .mk .Object "" 0 0 false [("a", JSONValue.ofInt 1)] []⟩
        false).data.any isCSpace = true :=
  ⟨rfl, rfl, rfl⟩

/-- Claim C9 (amended): for every tree whose reachable payload strings and
keys are whitespace-free, the compact (`pretty_print=false`) rendering is a
single line — it contains no newline — and its only whitespace characters
are single spaces each immediately preceded by a member colon. -/
theorem serialize_compact_whitespace (v : JSONValue)
    (h : wsFreeTree v = true) :
    (JSONParser.to_string ⟨true, "", v⟩ false).data.all
        (fun c => !decide (c = '\n')) = true ∧
    wsOnlyColonSpace 'x' (JSONParser.to_string ⟨true, "", v⟩ false).data
      = true :=
  ⟨wsOk_no_newline _ 'x' (wsOk_val v h 0 'x'), wsOk_val v h 0 'x'⟩

/-- Instance of `serialize_compact_whitespace` at the tree `{"a": 1}`. -/
theorem serialize_compact_whitespace_witness :
    wsFreeTree (.mk .Object "" 0 0 false [("a", JSONValue.ofInt 1)] [])
      = true ∧
    ((JSONParser.to_string
        ⟨true, "", .mk .Object "" 0 0 false [("a", JSONValue.ofInt 1)] []⟩
        false).data.all (fun c => !decide (c = '\n')) = true ∧
    wsOnlyColonSpace 'x'
        (JSONParser.to_string
          ⟨true, "", .mk .Object "" 0 0 false [("a", JSONValue.ofInt 1)] []⟩
          false).data = true) :=
  ⟨rfl, serialize_compact_whitespace
    (.mk .Object "" 0 0 false [("a", JSONValue.ofInt 1)] []) rfl⟩

/-- Counterexample to claim C4 as stated: the serializer renders doubles with
printf %f's fixed six fractional digits, so a double needing more precision
does not survive the trip.  `1/10000000000` renders as "0.000000", which
reparses successfully to the Number 0: the kind matches but the value at the
root path does not. -/
theorem round_trip_cex :
    (JSONParser.parse (JSONParser.to_string
        ⟨true, "", JSONValue.ofDouble (Rat.divInt 1 10000000000)⟩
        false)).success = true ∧
    (JSONParser.parse (JSONParser.to_string
        ⟨true, "", JSONValue.ofDouble (Rat.divInt 1 10000000000)⟩
        false)).root.get_type = .Number ∧
    ¬((JSONParser.parse (JSONParser.to_string
        ⟨true, "", JSONValue.ofDouble (Rat.divInt 1 10000000000)⟩
        false)).root.double_value
      = (JSONValue.ofDouble (Rat.divInt 1 10000000000)).double_value) :=
  ⟨rfl, rfl, by decide⟩

/-- Folding digits onto a nonzero accumulator shifts the accumulator past the
digit run. -/
theorem digitsVal_go : ∀ (l : List Char) (a : Nat),
    l.foldl (fun a2 c => a2 * 10 + digitToNat c) a =
      a * 10 ^ l.length + digitsVal l
  | [], a => by simp [digitsVal]
  | c :: t, a => by
    simp only [List.foldl_cons, List.length_cons]
    rw [digitsVal_go t (a * 10 + digitToNat c)]
    have h2 : digitsVal (c :: t) = digitToNat c * 10 ^ t.length + digitsVal t := by
      simp only [digitsVal, List.foldl_cons]
      rw [digitsVal_go t (0 * 10 + digitToNat c)]
      simp only [digitsVal]
      ring
    rw [h2]
    ring

/-- Value of a concatenated digit run. -/
theorem digitsVal_append (x y : List Char) :
    digitsVal (x ++ y) = digitsVal x * 10 ^ y.length + digitsVal y := by
  simp only [digitsVal, List.foldl_append]
  exact digitsVal_go y (x.foldl (fun a2 c => a2 * 10 + digitToNat c) 0)

/-- The digit character of a digit decodes to the digit. -/
theorem digitToNat_digitChar (n : Nat) (h : n < 10) :
    digitToNat (Nat.digitChar n) = n := by
  interval_cases n <;> rfl

/-- Decimal rendering then scanning is the identity (fueled form). -/
theorem digitsVal_natReprAux : ∀ (f n : Nat), n < f →
    digitsVal (natReprAux f n) = n
  | 0, n, h => absurd h (Nat.not_lt_zero n)
  | f + 1, n, h => by
    simp only [natReprAux]
    by_cases h10 : n < 10
    · rw [if_pos h10]
      simp only [digitsVal, List.foldl_cons, List.foldl_nil]
      rw [Nat.zero_mul, Nat.zero_add]
      exact digitToNat_digitChar n h10
    · rw [if_neg h10]
      rw [digitsVal_append]
      have hdiv : n / 10 < f := by
        have h1 : n / 10 < n := Nat.div_lt_self (by omega) (by omega)
        omega
      rw [digitsVal_natReprAux f (n / 10) hdiv]
      have h2 : digitsVal [Nat.digitChar (n % 10)] = n % 10 := by
        simp only [digitsVal, List.foldl_cons, List.foldl_nil]
        rw [Nat.zero_mul, Nat.zero_add]
        exact digitToNat_digitChar (n % 10) (Nat.mod_lt n (by omega))
      rw [h2]
      simp only [List.length_cons, List.length_nil, pow_one]
      omega

/-- Decimal rendering then scanning is the identity. -/
theorem digitsVal_natRepr (n : Nat) : digitsVal (natRepr n) = n :=
  digitsVal_natReprAux (n + 1) n (Nat.lt_succ_self n)

/-- Rendered naturals are nonempty (fueled form). -/
theorem natReprAux_ne_nil (f n : Nat) (h : 0 < f) : natReprAux f n ≠ [] := by
  cases f with
  | zero => omega
  | succ f2 =>
    simp only [natReprAux]
    by_cases h10 : n < 10
    · rw [if_pos h10]; simp
    · rw [if_neg h10]; simp

/-- Rendered naturals are nonempty. -/
theorem natRepr_ne_nil (n : Nat) : natRepr n ≠ [] :=
  natReprAux_ne_nil (n + 1) n (Nat.succ_pos n)

/-- Leading zero digits do not change the scanned value. -/
theorem digitsVal_replicate_zero : ∀ (k : Nat) (l : List Char),
    digitsVal (List.replicate k '0' ++ l) = digitsVal l
  | 0, l => rfl
  | k + 1, l => by
    have h : digitsVal (List.replicate (k + 1) '0' ++ l)
        = digitsVal (List.replicate k '0' ++ l) := by
      simp [List.replicate_succ, digitsVal, digitToNat]
    rw [h, digitsVal_replicate_zero k l]

/-- Digit-count bound of the rendering (fueled form). -/
theorem natReprAux_len_le : ∀ (f n k : Nat), n < f → n < 10 ^ (k + 1) →
    (natReprAux f n).length ≤ k + 1
  | 0, n, k, h, _ => absurd h (Nat.not_lt_zero n)
  | f + 1, n, k, h, hk => by
    simp only [natReprAux]
    by_cases h10 : n < 10
    · rw [if_pos h10]; simp
    · rw [if_neg h10]
      cases k with
      | zero => simp at hk; omega
      | succ k2 =>
        rw [List.length_append]
        have hdiv : n / 10 < f := by
          have h1 : n / 10 < n := Nat.div_lt_self (by omega) (by omega)
          omega
        have hdk : n / 10 < 10 ^ (k2 + 1) := by
          rw [Nat.div_lt_iff_lt_mul (by omega)]
          calc n < 10 ^ (k2 + 2) := hk
            _ = 10 ^ (k2 + 1) * 10 := by ring
        have := natReprAux_len_le f (n / 10) k2 hdiv hdk
        simp only [List.length_cons, List.length_nil]
        omega

/-- Digit-count bound of the rendering. -/
theorem natRepr_len_le (n k : Nat) (h : n < 10 ^ (k + 1)) :
    (natRepr n).length ≤ k + 1 :=
  natReprAux_len_le (n + 1) n k (Nat.lt_succ_self n) h

/-- `takeWhile` passes over a prefix all of whose characters satisfy the
predicate. -/
theorem takeWhile_append_all : ∀ (x y : List Char) (p : Char → Bool),
    (∀ c ∈ x, p c = true) →
    (x ++ y).takeWhile p = x ++ y.takeWhile p
  | [], y, p, _ => rfl
  | c :: t, y, p, h => by
    have hc : p c = true := h c (by simp)
    simp only [List.cons_append, List.takeWhile_cons, hc, if_true]
    rw [takeWhile_append_all t y p (fun x2 hx => h x2 (by simp [hx]))]

/-- `dropWhile` drops exactly a prefix all of whose characters satisfy the
predicate. -/
theorem dropWhile_append_all : ∀ (x y : List Char) (p : Char → Bool),
    (∀ c ∈ x, p c = true) →
    (x ++ y).dropWhile p = y.dropWhile p
  | [], y, p, _ => rfl
  | c :: t, y, p, h => by
    have hc : p c = true := h c (by simp)
    simp only [List.cons_append, List.dropWhile_cons, hc, if_true]
    exact dropWhile_append_all t y p (fun x2 hx => h x2 (by simp [hx]))

/-- Shape analysis of an admissible continuation. -/
theorem restOk_cases (r : List Char) (h : restOk r = true) :
    r = [] ∨ (∃ t, r = ',' :: t) ∨ (∃ t, r = '\x7d' :: t) ∨
      (∃ t, r = ']' :: t) := by
  cases r with
  | nil => exact Or.inl rfl
  | cons c t =>
    have h2 : c = ',' ∨ c = '\x7d' ∨ c = ']' := by
      simpa [restOk, decide_eq_true_eq] using h
    rcases h2 with h3 | h3 | h3
    · exact Or.inr (Or.inl ⟨t, by rw [h3]⟩)
    · exact Or.inr (Or.inr (Or.inl ⟨t, by rw [h3]⟩))
    · exact Or.inr (Or.inr (Or.inr ⟨t, by rw [h3]⟩))

/-- The string loop consumes a clean rendered string up to the closing quote
verbatim. -/
theorem parseStringGo_clean : ∀ (s acc r : List Char),
    (∀ c ∈ s, ¬(c = '"') ∧ ¬(c = '\\')) →
    parseStringGo acc (s ++ '"' :: r) = .ok ((acc ++ s).asString, r)
  | [], acc, r, _ => by
    show parseStringGo acc ('"' :: r) = _
    cases r with
    | nil =>
      rw [parseStringGo.eq_2, if_pos rfl]
      simp
    | cons r1 rt =>
      rw [parseStringGo.eq_3, if_pos rfl]
      simp
  | [c], acc, r, h => by
    have hc := h c (by simp)
    show parseStringGo acc (c :: '"' :: r) = _
    rw [parseStringGo.eq_3, if_neg hc.1, if_neg hc.2]
    have h3 := parseStringGo_clean [] (acc ++ [c]) r (by simp)
    simpa using h3
  | c :: c2 :: t, acc, r, h => by
    have hc := h c (by simp)
    show parseStringGo acc (c :: c2 :: (t ++ '"' :: r)) = _
    rw [parseStringGo.eq_3, if_neg hc.1, if_neg hc.2]
    have h3 := parseStringGo_clean (c2 :: t) (acc ++ [c]) r
      (fun x hx => h x (by simp [hx]))
    simpa using h3
  termination_by s _ _ _ => s.length

/-- `takeWhile` keeps a list all of whose characters satisfy the predicate. -/
theorem takeWhile_all (l : List Char) (p : Char → Bool)
    (h : ∀ c ∈ l, p c = true) : l.takeWhile p = l := by
  have h2 := takeWhile_append_all l [] p h
  simpa using h2

/-- `dropWhile` empties a list all of whose characters satisfy the
predicate. -/
theorem dropWhile_all (l : List Char) (p : Char → Bool)
    (h : ∀ c ∈ l, p c = true) : l.dropWhile p = [] := by
  have h2 := dropWhile_append_all l [] p h
  simpa using h2

/-- All characters of a rendered natural number are digits. -/
theorem natRepr_digits (n : Nat) (c : Char) (hc : c ∈ natRepr n) :
    c.isDigit = true :=
  natReprAux_digits (n + 1) n c hc

/-- `std::stoi` inverts `std::to_string` on ints in the 32-bit range. -/
theorem stoiModel_intRepr (i : Int) (h1 : -2147483648 ≤ i)
    (h2 : i ≤ 2147483647) : stoiModel (intRepr i) = some i := by
  have htw : (natRepr i.natAbs).takeWhile Char.isDigit = natRepr i.natAbs :=
    takeWhile_all _ _ (fun c hc => natRepr_digits _ c hc)
  have hie : (natRepr i.natAbs).isEmpty = false := by
    cases hds : natRepr i.natAbs with
    | nil => exact absurd hds (natRepr_ne_nil _)
    | cons d dt => rfl
  by_cases hneg : i < 0
  · simp only [intRepr, if_pos hneg, stoiModel]
    have hdw : List.dropWhile isCSpace ('-' :: natRepr i.natAbs)
        = '-' :: natRepr i.natAbs := by
      rw [List.dropWhile_cons, if_neg (by decide)]
    rw [hdw]
    simp only [if_pos rfl, if_true, htw, hie, Bool.false_eq_true, if_false,
      digitsVal_natRepr]
    rw [if_neg (by omega)]
    congr 1
    omega
  · simp only [intRepr, if_neg hneg, stoiModel]
    cases hds : natRepr i.natAbs with
    | nil => exact absurd hds (natRepr_ne_nil _)
    | cons d dt =>
      have hd0 : d.isDigit = true :=
        natRepr_digits i.natAbs d (by rw [hds]; simp)
      have hdm : ¬d = '-' := by
        intro h3
        rw [h3] at hd0
        exact absurd hd0 (by decide)
      have hdp : ¬d = '+' := by
        intro h3
        rw [h3] at hd0
        exact absurd hd0 (by decide)
      have hdw : List.dropWhile isCSpace (d :: dt) = d :: dt := by
        rw [List.dropWhile_cons, digit_not_csp d hd0]
        simp
      rw [hdw]
      simp only [if_neg hdm, if_neg hdp]
      rw [← hds, htw, hie]
      simp only [Bool.false_eq_true, if_false, digitsVal_natRepr]
      rw [if_neg (by omega)]
      congr 1
      omega

/-- `std::stod` on a sign + digit run + point + six-digit fraction reads off
the scaled decimal value. -/
theorem stodModel_fixed6 (sgn : Bool) (ip fd : List Char)
    (hipne : ip ≠ [])
    (hipd : ∀ c ∈ ip, c.isDigit = true)
    (hfdd : ∀ c ∈ fd, c.isDigit = true)
    (hfdlen : fd.length ≤ 6) :
    stodModel ((if sgn then ['-'] else []) ++ ip ++ ['.']
        ++ (List.replicate (6 - fd.length) '0' ++ fd))
      = some (Rat.divInt
          ((if sgn then (-1 : Int) else 1)
            * ((digitsVal ip * 1000000 + digitsVal fd : Nat) : Int))
          ((1000000 : Nat) : Int)) := by
  obtain ⟨d, dt, hip⟩ : ∃ d dt, ip = d :: dt := by
    cases hipc : ip with
    | nil => exact absurd hipc hipne
    | cons d dt => exact ⟨d, dt, rfl⟩
  have hfracd : ∀ c ∈ List.replicate (6 - fd.length) '0' ++ fd,
      c.isDigit = true := by
    intro c hc
    rcases List.mem_append.mp hc with h3 | h3
    · rw [List.eq_of_mem_replicate h3]; decide
    · exact hfdd c h3
  have hflen : (List.replicate (6 - fd.length) '0' ++ fd).length = 6 := by
    rw [List.length_append, List.length_replicate]
    omega
  have hd1 : List.takeWhile Char.isDigit
      (ip ++ '.' :: (List.replicate (6 - fd.length) '0' ++ fd)) = ip := by
    rw [takeWhile_append_all _ _ _ hipd]
    simp [List.takeWhile_cons]
  have hl2 : List.dropWhile Char.isDigit
      (ip ++ '.' :: (List.replicate (6 - fd.length) '0' ++ fd))
      = '.' :: (List.replicate (6 - fd.length) '0' ++ fd) := by
    rw [dropWhile_append_all _ _ _ hipd]
    simp [List.dropWhile_cons]
  have hdv : digitsVal (ip ++ (List.replicate (6 - fd.length) '0' ++ fd))
      = digitsVal ip * 1000000 + digitsVal fd := by
    rw [digitsVal_append, hflen, digitsVal_replicate_zero]
    norm_num
  have hdm : ¬d = '-' := by
    intro h3
    have := hipd d (by rw [hip]; simp)
    rw [h3] at this
    exact absurd this (by decide)
  have hdp : ¬d = '+' := by
    intro h3
    have := hipd d (by rw [hip]; simp)
    rw [h3] at this
    exact absurd this (by decide)
  have hdcsp : isCSpace d = false :=
    digit_not_csp d (hipd d (by rw [hip]; simp))
  cases sgn with
  | true =>
    simp only [if_true, List.cons_append, List.nil_append, List.append_assoc]
    show stodModel ('-' :: (ip ++ '.' :: (List.replicate (6 - fd.length) '0' ++ fd))) = _
    simp only [stodModel]
    have hdw : List.dropWhile isCSpace
        ('-' :: (ip ++ '.' :: (List.replicate (6 - fd.length) '0' ++ fd)))
        = '-' :: (ip ++ '.' :: (List.replicate (6 - fd.length) '0' ++ fd)) := by
      rw [List.dropWhile_cons, if_neg (by decide)]
    rw [hdw]
    simp only [if_pos rfl, if_true, hd1, hl2, List.takeWhile_cons,
      List.dropWhile_cons]
    rw [takeWhile_all _ _ hfracd, dropWhile_all _ _ hfracd]
    rw [hip]
    simp only [List.isEmpty_cons, Bool.false_eq_true, false_and, if_false,
      decide_True, if_true, List.isEmpty_nil]
    rw [← hip, hdv, hflen]
    norm_num
  | false =>
    simp only [if_false, List.cons_append, List.nil_append, List.append_assoc]
    rw [hip]
    show stodModel (d :: (dt ++ '.' :: (List.replicate (6 - fd.length) '0' ++ fd))) = _
    simp only [stodModel]
    have hdw : List.dropWhile isCSpace
        (d :: (dt ++ '.' :: (List.replicate (6 - fd.length) '0' ++ fd)))
        = d :: (dt ++ '.' :: (List.replicate (6 - fd.length) '0' ++ fd)) := by
      rw [List.dropWhile_cons, hdcsp]
      simp
    rw [hdw]
    simp only [if_neg hdm, if_neg hdp]
    have hshape : d :: (dt ++ '.' :: (List.replicate (6 - fd.length) '0' ++ fd))
        = ip ++ '.' :: (List.replicate (6 - fd.length) '0' ++ fd) := by
      rw [hip]
      simp
    rw [hshape, hd1, hl2]
    simp only [List.takeWhile_cons, List.dropWhile_cons]
    rw [takeWhile_all _ _ hfracd, dropWhile_all _ _ hfracd]
    rw [hip]
    simp only [List.isEmpty_cons, Bool.false_eq_true, false_and, if_false,
      decide_True, if_true, List.isEmpty_nil]
    rw [← hip, hdv, hflen]
    norm_num

/-- The %f scaling of `toString6` on a rational whose denominator divides a
million: the floor of `|q| * 10^6 + 1/2` is exactly `|num| * (10^6 / den)`. -/
theorem toString6_scale (q : Rat) (hd : 1000000 % q.den = 0) :
    (q.num.natAbs * 2000000 + q.den) / (2 * q.den)
      = q.num.natAbs * (1000000 / q.den) := by
  have hpos : 0 < q.den := Nat.pos_of_ne_zero q.den_nz
  have hdvd : q.den ∣ 1000000 := Nat.dvd_of_mod_eq_zero hd
  have hc : 1000000 / q.den * q.den = 1000000 := Nat.div_mul_cancel hdvd
  have h1 : q.num.natAbs * 2000000 + q.den
      = q.den * (2 * (q.num.natAbs * (1000000 / q.den)) + 1) := by
    have h2 : (2000000 : Nat) = 2 * (1000000 / q.den * q.den) := by
      rw [hc]
    rw [h2]
    ring
  rw [h1, show 2 * q.den = q.den * 2 from by ring,
    Nat.mul_div_mul_left _ _ hpos, Nat.mul_add_div (by omega)]
  norm_num

/-- `std::stod` inverts the %f rendering on rationals whose denominator
divides a million (those %f represents exactly). -/
theorem stodModel_toString6 (q : Rat) (hd : 1000000 % q.den = 0) :
    stodModel (toString6 q).data = some q := by
  have hpos : 0 < q.den := Nat.pos_of_ne_zero q.den_nz
  have hdvd : q.den ∣ 1000000 := Nat.dvd_of_mod_eq_zero hd
  have hc : 1000000 / q.den * q.den = 1000000 := Nat.div_mul_cancel hdvd
  have hcpos : 0 < 1000000 / q.den :=
    Nat.div_pos (Nat.le_of_dvd (by norm_num) hdvd) hpos
  have hdata : (toString6 q).data
      = (if decide (q.num < 0) = true then ['-'] else [])
        ++ natRepr ((q.num.natAbs * 2000000 + q.den) / (2 * q.den) / 1000000)
        ++ ['.']
        ++ (List.replicate
              (6 - (natRepr ((q.num.natAbs * 2000000 + q.den) / (2 * q.den)
                % 1000000)).length) '0'
            ++ natRepr ((q.num.natAbs * 2000000 + q.den) / (2 * q.den)
                % 1000000)) := by
    simp [toString6, asString_data]
  rw [hdata]
  rw [stodModel_fixed6 (decide (q.num < 0))
    (natRepr ((q.num.natAbs * 2000000 + q.den) / (2 * q.den) / 1000000))
    (natRepr ((q.num.natAbs * 2000000 + q.den) / (2 * q.den) % 1000000))
    (natRepr_ne_nil _)
    (fun c hc2 => natRepr_digits _ c hc2)
    (fun c hc2 => natRepr_digits _ c hc2)
    (natRepr_len_le _ 5 (by
      have := Nat.mod_lt ((q.num.natAbs * 2000000 + q.den) / (2 * q.den))
        (show 0 < 1000000 by norm_num)
      norm_num
      omega))]
  rw [digitsVal_natRepr, digitsVal_natRepr, toString6_scale q hd]
  have hval : q.num.natAbs * (1000000 / q.den) / 1000000 * 1000000
      + q.num.natAbs * (1000000 / q.den) % 1000000
      = q.num.natAbs * (1000000 / q.den) := by
    have := Nat.div_add_mod (q.num.natAbs * (1000000 / q.den)) 1000000
    omega
  rw [hval]
  congr 1
  have hden : ((1000000 : Nat) : Int)
      = (q.den : Int) * ((1000000 / q.den : Nat) : Int) := by
    nth_rewrite 1 [← hc]
    rw [Nat.cast_mul]
    ring
  have hcne : ((1000000 / q.den : Nat) : Int) ≠ 0 :=
    Int.natCast_ne_zero.mpr (by omega)
  by_cases hneg : q.num < 0
  · rw [if_pos (by simpa using hneg)]
    have hnum : (-1 : Int) * ((q.num.natAbs * (1000000 / q.den) : Nat) : Int)
        = q.num * ((1000000 / q.den : Nat) : Int) := by
      rw [Nat.cast_mul, Int.natCast_natAbs, abs_of_neg hneg]
      ring
    rw [hnum, hden, Rat.divInt_mul_right hcne]
    exact Rat.divInt_self q
  · rw [if_neg (by simpa using hneg)]
    have hnum : (1 : Int) * ((q.num.natAbs * (1000000 / q.den) : Nat) : Int)
        = q.num * ((1000000 / q.den : Nat) : Int) := by
      rw [Nat.cast_mul, Int.natCast_natAbs, abs_of_nonneg (by omega)]
      ring
    rw [hnum, hden, Rat.divInt_mul_right hcne]
    exact Rat.divInt_self q

/-- A list avoiding a character does not contain it. -/
theorem contains_eq_false_of : ∀ (l : List Char) (a : Char),
    (∀ c ∈ l, ¬(c = a)) → l.contains a = false
  | [], _, _ => rfl
  | c :: t, a, h => by
    simp only [List.contains_cons, Bool.or_eq_false_iff]
    constructor
    · simp only [beq_eq_false_iff_ne, ne_eq]
      intro h2
      exact h c (by simp) h2.symm
    · exact contains_eq_false_of t a (fun x hx => h x (by simp [hx]))

/-- A list contains its members. -/
theorem contains_eq_true_of : ∀ (l : List Char) (a : Char), a ∈ l →
    l.contains a = true
  | [], _, h => absurd h (by simp)
  | c :: t, a, h => by
    simp only [List.contains_cons, Bool.or_eq_true]
    rcases List.mem_cons.mp h with h2 | h2
    · exact Or.inl (by simp [h2])
    · exact Or.inr (contains_eq_true_of t a h2)

/-- Characters of a rendered int are the minus sign or digits. -/
theorem intRepr_chars (i : Int) (c : Char) (hc : c ∈ intRepr i) :
    c = '-' ∨ c.isDigit = true := by
  simp only [intRepr] at hc
  by_cases h : i < 0
  · rw [if_pos h] at hc
    rcases List.mem_cons.mp hc with h2 | h2
    · exact Or.inl h2
    · exact Or.inr (natRepr_digits _ c h2)
  · rw [if_neg h] at hc
    exact Or.inr (natRepr_digits _ c hc)

/-- An admissible continuation starts with no digit. -/
theorem restOk_take_digit (r : List Char) (h : restOk r = true) :
    r.takeWhile Char.isDigit = [] := by
  rcases restOk_cases r h with rfl | ⟨t, rfl⟩ | ⟨t, rfl⟩ | ⟨t, rfl⟩ <;>
    simp [List.takeWhile_cons]

/-- An admissible continuation loses nothing to a digit scan. -/
theorem restOk_drop_digit (r : List Char) (h : restOk r = true) :
    r.dropWhile Char.isDigit = r := by
  rcases restOk_cases r h with rfl | ⟨t, rfl⟩ | ⟨t, rfl⟩ | ⟨t, rfl⟩ <;>
    simp [List.dropWhile_cons]

/-- The number lexeme scan stops exactly at the end of a rendered int. -/
theorem numLexeme_intRepr (i : Int) (r : List Char) (hr : restOk r = true) :
    numLexeme (intRepr i ++ r) = (intRepr i, r) := by
  by_cases hneg : i < 0
  · simp only [intRepr, if_pos hneg]
    have htw : List.takeWhile Char.isDigit (natRepr i.natAbs ++ r)
        = natRepr i.natAbs := by
      rw [takeWhile_append_all _ _ _ (fun c hc => natRepr_digits _ c hc),
        restOk_take_digit r hr, List.append_nil]
    have hdw : List.dropWhile Char.isDigit (natRepr i.natAbs ++ r) = r := by
      rw [dropWhile_append_all _ _ _ (fun c hc => natRepr_digits _ c hc),
        restOk_drop_digit r hr]
    have htwn : List.takeWhile Char.isDigit (natRepr i.natAbs)
        = natRepr i.natAbs :=
      takeWhile_all _ _ (fun c hc => natRepr_digits _ c hc)
    have hdwn : List.dropWhile Char.isDigit (natRepr i.natAbs) = [] :=
      dropWhile_all _ _ (fun c hc => natRepr_digits _ c hc)
    rcases restOk_cases r hr with rfl | ⟨t, rfl⟩ | ⟨t, rfl⟩ | ⟨t, rfl⟩ <;>
      simp [numLexeme, htw, hdw, htwn, hdwn]
  · simp only [intRepr, if_neg hneg]
    cases hds : natRepr i.natAbs with
    | nil => exact absurd hds (natRepr_ne_nil _)
    | cons d dt =>
      have hd0 : d.isDigit = true :=
        natRepr_digits i.natAbs d (by rw [hds]; simp)
      have hdm : ¬d = '-' := by
        intro h3
        rw [h3] at hd0
        exact absurd hd0 (by decide)
      have hdt : ∀ c ∈ dt, c.isDigit = true := fun c hc =>
        natRepr_digits _ c (hds ▸ List.mem_cons_of_mem d hc)
      have htw : List.takeWhile Char.isDigit (dt ++ r) = dt := by
        rw [takeWhile_append_all _ _ _ hdt, restOk_take_digit r hr,
          List.append_nil]
      have hdw : List.dropWhile Char.isDigit (dt ++ r) = r := by
        rw [dropWhile_append_all _ _ _ hdt, restOk_drop_digit r hr]
      have htwn : List.takeWhile Char.isDigit dt = dt :=
        takeWhile_all _ _ hdt
      have hdwn : List.dropWhile Char.isDigit dt = [] :=
        dropWhile_all _ _ hdt
      rcases restOk_cases r hr with rfl | ⟨t, rfl⟩ | ⟨t, rfl⟩ | ⟨t, rfl⟩ <;>
        simp [numLexeme, htw, hdw, htwn, hdwn, hdm, hd0]

/-- The number lexeme scan stops exactly at the end of a sign + digits +
point + digit-fraction rendering. -/
theorem numLexeme_fixed (sgn : Bool) (ip fr r : List Char)
    (hipne : ip ≠ [])
    (hipd : ∀ c ∈ ip, c.isDigit = true)
    (hfrd : ∀ c ∈ fr, c.isDigit = true)
    (hr : restOk r = true) :
    numLexeme (((if sgn then ['-'] else []) ++ ip ++ ['.'] ++ fr) ++ r)
      = ((if sgn then ['-'] else []) ++ ip ++ ['.'] ++ fr, r) := by
  obtain ⟨d, dt, hip⟩ : ∃ d dt, ip = d :: dt := by
    cases hipc : ip with
    | nil => exact absurd hipc hipne
    | cons d dt => exact ⟨d, dt, rfl⟩
  subst hip
  have hd0 : d.isDigit = true := hipd d (by simp)
  have hdm : ¬d = '-' := by
    intro h3
    rw [h3] at hd0
    exact absurd hd0 (by decide)
  have hdt : ∀ c ∈ dt, c.isDigit = true := fun c hc =>
    hipd c (List.mem_cons_of_mem d hc)
  have htw1 : List.takeWhile Char.isDigit (dt ++ '.' :: (fr ++ r)) = dt := by
    rw [takeWhile_append_all _ _ _ hdt]
    simp [List.takeWhile_cons]
  have hdw1 : List.dropWhile Char.isDigit (dt ++ '.' :: (fr ++ r))
      = '.' :: (fr ++ r) := by
    rw [dropWhile_append_all _ _ _ hdt]
    simp [List.dropWhile_cons]
  have htw1n : List.takeWhile Char.isDigit (dt ++ '.' :: fr) = dt := by
    rw [takeWhile_append_all _ _ _ hdt]
    simp [List.takeWhile_cons]
  have hdw1n : List.dropWhile Char.isDigit (dt ++ '.' :: fr)
      = '.' :: fr := by
    rw [dropWhile_append_all _ _ _ hdt]
    simp [List.dropWhile_cons]
  have htw2 : List.takeWhile Char.isDigit (fr ++ r) = fr := by
    rw [takeWhile_append_all _ _ _ hfrd, restOk_take_digit r hr,
      List.append_nil]
  have hdw2 : List.dropWhile Char.isDigit (fr ++ r) = r := by
    rw [dropWhile_append_all _ _ _ hfrd, restOk_drop_digit r hr]
  have htw2n : List.takeWhile Char.isDigit fr = fr := takeWhile_all _ _ hfrd
  have hdw2n : List.dropWhile Char.isDigit fr = [] := dropWhile_all _ _ hfrd
  cases sgn with
  | true =>
    rcases restOk_cases r hr with rfl | ⟨t, rfl⟩ | ⟨t, rfl⟩ | ⟨t, rfl⟩ <;>
      simp [numLexeme, htw1, hdw1, htw1n, hdw1n, htw2, hdw2, htw2n, hdw2n,
        hd0]
  | false =>
    rcases restOk_cases r hr with rfl | ⟨t, rfl⟩ | ⟨t, rfl⟩ | ⟨t, rfl⟩ <;>
      simp [numLexeme, htw1, hdw1, htw1n, hdw1n, htw2, hdw2, htw2n, hdw2n,
        hd0, hdm]

/-- `parse_number` on a rendered int followed by an admissible continuation
takes the stoi path and returns the int. -/
theorem parseNumberL_intRepr (i : Int) (r : List Char) (hr : restOk r = true)
    (h1 : -2147483648 ≤ i) (h2 : i ≤ 2147483647) :
    parseNumberL (intRepr i ++ r) = .ok (JSONValue.ofInt i, r) := by
  have hnc : ∀ a : Char, a.isDigit = false → ¬a = '-' →
      (intRepr i).contains a = false := by
    intro a ha hm
    apply contains_eq_false_of
    intro c hc hca
    subst hca
    rcases intRepr_chars i c hc with h3 | h3
    · exact hm h3
    · rw [h3] at ha
      exact Bool.noConfusion ha
  simp only [parseNumberL, numLexeme_intRepr i r hr]
  rw [if_neg (by
    intro hor
    rcases hor with h3 | h3 | h3
    · rw [hnc '.' (by decide) (by decide)] at h3
      exact Bool.noConfusion h3
    · rw [hnc 'e' (by decide) (by decide)] at h3
      exact Bool.noConfusion h3
    · rw [hnc 'E' (by decide) (by decide)] at h3
      exact Bool.noConfusion h3)]
  rw [stoiModel_intRepr i h1 h2]

/-- `parse_number` on a %f rendering followed by an admissible continuation
takes the stod path and returns the exact rational. -/
theorem parseNumberL_toString6 (q : Rat) (r : List Char)
    (hr : restOk r = true) (hd : 1000000 % q.den = 0) :
    parseNumberL ((toString6 q).data ++ r)
      = .ok (JSONValue.ofDouble q, r) := by
  have hdata : (toString6 q).data
      = (if decide (q.num < 0) = true then ['-'] else [])
        ++ natRepr ((q.num.natAbs * 2000000 + q.den) / (2 * q.den) / 1000000)
        ++ ['.']
        ++ (List.replicate
              (6 - (natRepr ((q.num.natAbs * 2000000 + q.den) / (2 * q.den)
                % 1000000)).length) '0'
            ++ natRepr ((q.num.natAbs * 2000000 + q.den) / (2 * q.den)
                % 1000000)) := by
    simp [toString6, asString_data]
  have hfrd : ∀ c ∈ List.replicate
      (6 - (natRepr ((q.num.natAbs * 2000000 + q.den) / (2 * q.den)
        % 1000000)).length) '0'
      ++ natRepr ((q.num.natAbs * 2000000 + q.den) / (2 * q.den) % 1000000),
      c.isDigit = true := by
    intro c hc
    rcases List.mem_append.mp hc with h3 | h3
    · rw [List.eq_of_mem_replicate h3]; decide
    · exact natRepr_digits _ c h3
  have hnl : numLexeme ((toString6 q).data ++ r) = ((toString6 q).data, r) := by
    rw [hdata]
    exact numLexeme_fixed (decide (q.num < 0)) _ _ r (natRepr_ne_nil _)
      (fun c hc => natRepr_digits _ c hc) hfrd hr
  have hdot : (toString6 q).data.contains '.' = true := by
    apply contains_eq_true_of
    rw [hdata]
    simp
  simp only [parseNumberL, hnl]
  rw [if_pos (Or.inl hdot)]
  rw [stodModel_toString6 q hd]

/-- Key order is irreflexive. -/
theorem strLt_irrefl : ∀ a : List Char, strLt a a = false
  | [] => rfl
  | c :: t => by
    simp only [strLt, lt_irrefl, if_false]
    exact strLt_irrefl t

/-- Key order is asymmetric. -/
theorem strLt_asymm : ∀ (a b : List Char), strLt a b = true →
    strLt b a = false
  | [], [], h => Bool.noConfusion h
  | [], _ :: _, _ => rfl
  | _ :: _, [], h => Bool.noConfusion h
  | a :: as, b :: bs, h => by
    simp only [strLt] at h ⊢
    by_cases h1 : a < b
    · rw [if_neg (lt_asymm h1), if_pos h1]
    · rw [if_neg h1] at h
      by_cases h2 : b < a
      · rw [if_pos h2] at h
        exact Bool.noConfusion h
      · rw [if_neg h2] at h
        rw [if_neg h2, if_neg h1]
        exact strLt_asymm as bs h

/-- Key order is transitive. -/
theorem strLt_trans : ∀ (a b c : List Char), strLt a b = true →
    strLt b c = true → strLt a c = true
  | _, b, [], _, hbc => by rw [strLt_nil_right b] at hbc; exact Bool.noConfusion hbc
  | [], [], _ :: _, hab, _ => Bool.noConfusion hab
  | [], _ :: _, _ :: _, _, _ => rfl
  | _ :: _, [], _ :: _, hab, _ => Bool.noConfusion hab
  | a :: as, b :: bs, c :: cs, hab, hbc => by
    simp only [strLt] at hab hbc ⊢
    by_cases h1 : a < b
    · by_cases h2 : b < c
      · rw [if_pos (lt_trans h1 h2)]
      · rw [if_neg h2] at hbc
        by_cases h3 : c < b
        · rw [if_pos h3] at hbc
          exact Bool.noConfusion hbc
        · have hbc2 : b = c := le_antisymm (not_lt.mp h3) (not_lt.mp h2)
          rw [if_pos (hbc2 ▸ h1)]
    · rw [if_neg h1] at hab
      by_cases h2 : b < a
      · rw [if_pos h2] at hab
        exact Bool.noConfusion hab
      · have hab2 : a = b := le_antisymm (not_lt.mp h2) (not_lt.mp h1)
        rw [if_neg h2] at hab
        subst hab2
        by_cases h3 : a < c
        · rw [if_pos h3]
        · rw [if_neg h3] at hbc ⊢
          by_cases h4 : c < a
          · rw [if_pos h4] at hbc
            exact Bool.noConfusion hbc
          · rw [if_neg h4] at hbc ⊢
            exact strLt_trans as bs cs hab hbc

/-- Inserting a key strictly above every present key appends at the end. -/
theorem setEntry_append : ∀ (es : List (String × JSONValue)) (k : String)
    (v : JSONValue), (∀ p ∈ es, strLt p.1.data k.data = true) →
    setEntry es k v = es ++ [(k, v)]
  | [], _, _, _ => rfl
  | (k2, v2) :: tl, k, v, h => by
    have h2 : strLt k2.data k.data = true := h (k2, v2) (by simp)
    simp only [setEntry]
    rw [if_neg (by rw [strLt_asymm _ _ h2]; exact Bool.noConfusion)]
    rw [if_neg (by
      intro heq
      subst heq
      rw [strLt_irrefl] at h2
      exact Bool.noConfusion h2)]
    rw [setEntry_append tl k v (fun p hp => h p (by simp [hp]))]
    simp

/-- A strict lower bound on a sorted list bounds every element. -/
theorem keyBelow_below_all : ∀ (es : List (String × JSONValue)) (k : String),
    keysSorted es = true → keyBelow k es = true →
    ∀ p ∈ es, strLt k.data p.1.data = true
  | [], _, _, _, p, hp => absurd hp (by simp)
  | (k2, v2) :: tl, k, hs, hb, p, hp => by
    have hb2 : strLt k.data k2.data = true := hb
    have hs1 : keyBelow k2 tl = true := by
      simp only [keysSorted, Bool.and_eq_true] at hs
      exact hs.1
    have hs2 : keysSorted tl = true := by
      simp only [keysSorted, Bool.and_eq_true] at hs
      exact hs.2
    rcases List.mem_cons.mp hp with h3 | h3
    · rw [h3]
      exact hb2
    · have hkb : keyBelow k tl = true := by
        cases tl with
        | nil => rfl
        | cons p3 tl2 =>
          obtain ⟨k3, v3⟩ := p3
          exact strLt_trans _ _ _ hb2 hs1
      exact keyBelow_below_all tl k hs2 hkb p h3

/-- In a sorted concatenation, every key of the prefix is strictly below a
key of the suffix. -/
theorem sortedAppend_below : ∀ (acc : List (String × JSONValue)) (k : String)
    (v : JSONValue) (tl : List (String × JSONValue)),
    keysSorted (acc ++ (k, v) :: tl) = true →
    ∀ p ∈ acc, strLt p.1.data k.data = true
  | [], _, _, _, _, p, hp => absurd hp (by simp)
  | (k0, v0) :: acc2, k, v, tl, hs, p, hp => by
    have hs1 : keyBelow k0 (acc2 ++ (k, v) :: tl) = true := by
      simp only [List.cons_append, keysSorted, Bool.and_eq_true] at hs
      exact hs.1
    have hs2 : keysSorted (acc2 ++ (k, v) :: tl) = true := by
      simp only [List.cons_append, keysSorted, Bool.and_eq_true] at hs
      exact hs.2
    rcases List.mem_cons.mp hp with h3 | h3
    · rw [h3]
      exact keyBelow_below_all _ k0 hs2 hs1 (k, v) (by simp)
    · exact sortedAppend_below acc2 k v tl hs2 p h3

/-- Folding ordered inserts of a sorted continuation appends it. -/
theorem foldl_setEntry_sorted : ∀ (es acc : List (String × JSONValue)),
    keysSorted (acc ++ es) = true →
    List.foldl (fun m2 p => setEntry m2 p.1 p.2) acc es = acc ++ es
  | [], acc, _ => by simp
  | (k, v) :: tl, acc, hs => by
    simp only [List.foldl_cons]
    rw [setEntry_append acc k v (sortedAppend_below acc k v tl hs)]
    rw [foldl_setEntry_sorted tl (acc ++ [(k, v)]) (by
      rw [← List.append_cons]
      exact hs)]
    simp

/-- Folding inserts of the reparsed entries is folding over their image. -/
theorem foldl_set_image : ∀ (es acc : List (String × JSONValue)),
    List.foldl (fun m2 p => setEntry m2 p.1 (parseImage p.2)) acc es
      = List.foldl (fun m2 p => setEntry m2 p.1 p.2) acc (parseImageEntries es)
  | [], _ => rfl
  | (k, v) :: tl, acc => by
    simp only [List.foldl_cons, parseImageEntries]
    exact foldl_set_image tl (setEntry acc k (parseImage v))

/-- The reparse image preserves the leading-key bound. -/
theorem keyBelow_parseImageEntries (k : String)
    (es : List (String × JSONValue)) :
    keyBelow k (parseImageEntries es) = keyBelow k es := by
  cases es with
  | nil => rfl
  | cons p tl =>
    obtain ⟨k2, v2⟩ := p
    rfl

/-- The reparse image preserves sortedness of the keys. -/
theorem keysSorted_parseImageEntries : ∀ (es : List (String × JSONValue)),
    keysSorted (parseImageEntries es) = keysSorted es
  | [] => rfl
  | (k, v) :: tl => by
    simp only [parseImageEntries, keysSorted]
    rw [keyBelow_parseImageEntries, keysSorted_parseImageEntries tl]

/-- The reparse image preserves the presence of the empty key. -/
theorem hasEmptyKey_parseImageEntries : ∀ (es : List (String × JSONValue)),
    hasEmptyKey (parseImageEntries es) = hasEmptyKey es
  | [] => rfl
  | (k, v) :: tl => by
    simp only [parseImageEntries, hasEmptyKey, List.any_cons]
    rw [show (parseImageEntries tl).any (fun p => p.1 = "")
        = hasEmptyKey (parseImageEntries tl) from rfl,
      hasEmptyKey_parseImageEntries tl]
    rfl

/-- The object loop's fold over a sorted entry rendering produces exactly the
reparse image of the object: the empty-string seed survives unless the
entries overwrite it. -/
theorem foldl_set_parseImage (es : List (String × JSONValue))
    (hs : keysSorted es = true) :
    List.foldl (fun m2 p => setEntry m2 p.1 (parseImage p.2))
        emptyObjEntries es
      = (if hasEmptyKey es = true then parseImageEntries es
         else ("", JSONValue.null) :: parseImageEntries es) := by
  rw [foldl_set_image]
  by_cases he : hasEmptyKey es = true
  · rw [if_pos he]
    obtain ⟨w, tl, rfl⟩ := sorted_empty_head es hs he
    simp only [parseImageEntries, List.foldl_cons]
    have hstep : setEntry emptyObjEntries "" (parseImage w)
        = [("", parseImage w)] := rfl
    rw [hstep]
    have hsrt : keysSorted ([("", parseImage w)] ++ parseImageEntries tl)
        = true := by
      have h2 : keysSorted (("", parseImage w) :: parseImageEntries tl)
          = keysSorted (("", w) :: tl) := by
        simp only [keysSorted]
        rw [keyBelow_parseImageEntries, keysSorted_parseImageEntries tl]
      simp only [List.singleton_append]
      rw [h2]
      exact hs
    rw [foldl_setEntry_sorted (parseImageEntries tl) [("", parseImage w)] hsrt]
    simp
  · rw [if_neg he]
    have hkb : keyBelow "" (parseImageEntries es) = true := by
      rw [keyBelow_parseImageEntries]
      cases es with
      | nil => rfl
      | cons p tl =>
        obtain ⟨k1, v1⟩ := p
        have hk1 : ¬k1 = "" := by
          intro h3
          exact he (by simp [hasEmptyKey, h3])
        show strLt "".data k1.data = true
        cases hd1 : k1.data with
        | nil => exact absurd (string_data_eq (a := k1) (b := "") hd1) hk1
        | cons c t => rfl
    have hsrt : keysSorted (emptyObjEntries ++ parseImageEntries es)
        = true := by
      show keysSorted (("", JSONValue.null) :: parseImageEntries es) = true
      simp only [keysSorted, Bool.and_eq_true]
      exact ⟨hkb, by rw [keysSorted_parseImageEntries]; exact hs⟩
    rw [foldl_setEntry_sorted (parseImageEntries es) emptyObjEntries hsrt]
    rfl

/-- Whitespace skipping fixes a list with a non-whitespace head. -/
theorem skipWs_cons_nows (c : Char) (t : List Char) (h : isCSpace c = false) :
    skipWs (c :: t) = c :: t := by
  simp [skipWs, List.dropWhile_cons, h]

/-- Whitespace skipping drops a leading space. -/
theorem skipWs_space (t : List Char) : skipWs (' ' :: t) = skipWs t := by
  rw [show skipWs (' ' :: t) = List.dropWhile isCSpace (' ' :: t) from rfl,
    List.dropWhile_cons, if_pos (by decide)]
  rfl

/-- Whitespace skipping is idempotent. -/
theorem skipWs_idem : ∀ l : List Char, skipWs (skipWs l) = skipWs l
  | [] => rfl
  | c :: t => by
    by_cases h : isCSpace c = true
    · have h2 : skipWs (c :: t) = skipWs t := by
        simp [skipWs, List.dropWhile_cons, h]
      rw [h2, skipWs_idem t]
    · rw [skipWs_cons_nows c t (by simpa using h),
        skipWs_cons_nows c t (by simpa using h)]

/-- `parse_value` only looks at its input through the whitespace skip. -/
theorem parseRun_value_skipWs (n : Nat) (l : List Char) :
    parseRun n .value (skipWs l) = parseRun n .value l := by
  cases n with
  | zero => rfl
  | succ m =>
    simp only [parseRun]
    rw [skipWs_idem]

/-- `parse_value` ignores a leading space. -/
theorem parseRun_value_space (n : Nat) (l : List Char) :
    parseRun n .value (' ' :: l) = parseRun n .value l := by
  rw [← parseRun_value_skipWs n (' ' :: l), skipWs_space,
    parseRun_value_skipWs]

/-- Compact rendering of an Object value, character form. -/
theorem valueToString_obj_data (s : String) (iv : Int) (dv : Rat) (bv : Bool)
    (o : List (String × JSONValue)) (a : List JSONValue) (ind : Nat) :
    (valueToString (.mk .Object s iv dv bv o a) ind false).data
      = '\x7b' :: ((entriesToString o ind false).data ++ ['\x7d']) := by
  simp [valueToString, String.data_append]

/-- Compact rendering of an Array value, character form. -/
theorem valueToString_arr_data (s : String) (iv : Int) (dv : Rat) (bv : Bool)
    (o : List (String × JSONValue)) (a : List JSONValue) (ind : Nat) :
    (valueToString (.mk .Array s iv dv bv o a) ind false).data
      = '[' :: ((elemsToString a ind false).data ++ [']']) := by
  simp [valueToString, String.data_append]

/-- Compact rendering of a leading object member, character form. -/
theorem entriesToString_cons_data (k : String) (v : JSONValue)
    (tl : List (String × JSONValue)) (ind : Nat) :
    (entriesToString ((k, v) :: tl) ind false).data
      = '"' :: (k.data ++ '"' :: ':' :: ' '
          :: ((valueToString v (ind + 1) false).data
              ++ (match tl with
                  | [] => []
                  | _ :: _ => ',' :: (entriesToString tl ind false).data))) := by
  cases tl <;> simp [entriesToString, String.data_append]

/-- Compact rendering of a leading array element, character form. -/
theorem elemsToString_cons_data (x : JSONValue) (tl : List JSONValue)
    (ind : Nat) :
    (elemsToString (x :: tl) ind false).data
      = (valueToString x (ind + 1) false).data
          ++ (match tl with
              | [] => []
              | _ :: _ => ',' :: (elemsToString tl ind false).data) := by
  cases tl <;> simp [elemsToString, String.data_append]

/-- The %f rendering starts with a minus sign or a digit. -/
theorem toString6_head (q : Rat) :
    ∃ c t, (toString6 q).data = c :: t ∧ (c.isDigit = true ∨ c = '-') := by
  have hdata : (toString6 q).data
      = (if decide (q.num < 0) = true then ['-'] else [])
        ++ natRepr ((q.num.natAbs * 2000000 + q.den) / (2 * q.den) / 1000000)
        ++ ['.']
        ++ (List.replicate
              (6 - (natRepr ((q.num.natAbs * 2000000 + q.den) / (2 * q.den)
                % 1000000)).length) '0'
            ++ natRepr ((q.num.natAbs * 2000000 + q.den) / (2 * q.den)
                % 1000000)) := by
    simp [toString6, asString_data]
  by_cases hneg : q.num < 0
  · refine ⟨'-',
      (natRepr ((q.num.natAbs * 2000000 + q.den) / (2 * q.den) / 1000000)
          ++ ['.'])
        ++ (List.replicate
              (6 - (natRepr ((q.num.natAbs * 2000000 + q.den) / (2 * q.den)
                % 1000000)).length) '0'
            ++ natRepr ((q.num.natAbs * 2000000 + q.den) / (2 * q.den)
                % 1000000)), ?_, Or.inr rfl⟩
    rw [hdata, if_pos (by simpa using hneg)]
    simp
  · cases hds : natRepr ((q.num.natAbs * 2000000 + q.den) / (2 * q.den)
        / 1000000) with
    | nil => exact absurd hds (natRepr_ne_nil _)
    | cons d dt =>
      refine ⟨d,
        (dt ++ ['.'])
          ++ (List.replicate
                (6 - (natRepr ((q.num.natAbs * 2000000 + q.den) / (2 * q.den)
                  % 1000000)).length) '0'
              ++ natRepr ((q.num.natAbs * 2000000 + q.den) / (2 * q.den)
                  % 1000000)),
        ?_, Or.inl (natRepr_digits _ d (by rw [hds]; simp))⟩
      rw [hdata, if_neg (by simpa using hneg), hds]
      simp

/-- The compact rendering of any value starts with a character that is not
whitespace and not a closing bracket. -/
theorem valueToString_head (v : JSONValue) (ind : Nat) :
    ∃ c t, (valueToString v ind false).data = c :: t ∧
      isCSpace c = false ∧ ¬c = ']' := by
  obtain ⟨ty, s, iv, dv, bv, o, a⟩ := v
  cases ty with
  | String => exact ⟨'"', s.data ++ ['"'], rfl, by decide, by decide⟩
  | Integer =>
    have hdata : (valueToString (.mk .Integer s iv dv bv o a) ind false).data
        = intRepr iv := rfl
    by_cases hneg : iv < 0
    · refine ⟨'-', natRepr iv.natAbs, ?_, by decide, by decide⟩
      rw [hdata]
      simp [intRepr, hneg]
    · cases hds : natRepr iv.natAbs with
      | nil => exact absurd hds (natRepr_ne_nil _)
      | cons d dt =>
        have hd0 : d.isDigit = true :=
          natRepr_digits _ d (by rw [hds]; simp)
        refine ⟨d, dt, ?_, digit_not_csp d hd0, ?_⟩
        · rw [hdata]
          simp [intRepr, hneg, hds]
        · intro h3
          rw [h3] at hd0
          exact absurd hd0 (by decide)
  | Number =>
    have hdata : (valueToString (.mk .Number s iv dv bv o a) ind false).data
        = (toString6 dv).data := rfl
    obtain ⟨c, t, hct, hcd⟩ := toString6_head dv
    refine ⟨c, t, by rw [hdata, hct], ?_, ?_⟩
    · rcases hcd with h3 | h3
      · exact digit_not_csp c h3
      · rw [h3]
        decide
    · rcases hcd with h3 | h3
      · intro h4
        rw [h4] at h3
        exact absurd h3 (by decide)
      · rw [h3]
        decide
  | Boolean =>
    cases bv with
    | true => exact ⟨'t', ['r', 'u', 'e'], rfl, by decide, by decide⟩
    | false => exact ⟨'f', ['a', 'l', 's', 'e'], rfl, by decide, by decide⟩
  | Null => exact ⟨'n', ['u', 'l', 'l'], rfl, by decide, by decide⟩
  | Object =>
    exact ⟨'\x7b', (entriesToString o ind false).data ++ ['\x7d'],
      valueToString_obj_data s iv dv bv o a ind, by decide, by decide⟩
  | Array =>
    exact ⟨'[', (elemsToString a ind false).data ++ [']'],
      valueToString_arr_data s iv dv bv o a ind, by decide, by decide⟩

/-- Compact renderings are nonempty. -/
theorem valueToString_ne_nil (v : JSONValue) (ind : Nat) :
    (valueToString v ind false).data ≠ [] := by
  obtain ⟨c, t, hct, _, _⟩ := valueToString_head v ind
  rw [hct]
  simp

/-- A digit head selects the number branch of `parse_value`. -/
theorem digit_dispatch (c : Char) (h : c.isDigit = true) :
    ¬c = '\x7b' ∧ ¬c = '[' ∧ ¬c = '"' ∧ ¬c = 't' ∧ ¬c = 'f' ∧ ¬c = 'n' := by
  refine ⟨?_, ?_, ?_, ?_, ?_, ?_⟩ <;>
    (intro h3; rw [h3] at h; exact Bool.noConfusion h)

/-- Components of a good entry list. -/
theorem goodEntries_cons (k : String) (v : JSONValue)
    (tl : List (String × JSONValue))
    (h : goodEntries ((k, v) :: tl) = true) :
    strClean k = true ∧ goodTree v = true ∧ goodEntries tl = true := by
  have h2 : ((strClean k && goodTree v) && goodEntries tl) = true := h
  simp only [Bool.and_eq_true] at h2
  exact ⟨h2.1.1, h2.1.2, h2.2⟩

/-- Components of a good element list. -/
theorem goodElems_cons (x : JSONValue) (tl : List JSONValue)
    (h : goodElems (x :: tl) = true) :
    goodTree x = true ∧ goodElems tl = true := by
  have h2 : (goodTree x && goodElems tl) = true := h
  simp only [Bool.and_eq_true] at h2
  exact h2

/-- A good String value has clean payload characters. -/
theorem goodTree_str (s : String) (iv : Int) (dv : Rat) (bv : Bool)
    (o : List (String × JSONValue)) (a : List JSONValue)
    (h : goodTree (.mk .String s iv dv bv o a) = true) :
    strClean s = true := by
  have h2 : decide (strClean s = true ∧ iv = 0 ∧ dv = 0 ∧ bv = false ∧
      o.isEmpty = true ∧ a.isEmpty = true) = true := h
  exact (of_decide_eq_true h2).1

/-- A good Integer value is in the 32-bit range. -/
theorem goodTree_int (s : String) (iv : Int) (dv : Rat) (bv : Bool)
    (o : List (String × JSONValue)) (a : List JSONValue)
    (h : goodTree (.mk .Integer s iv dv bv o a) = true) :
    -2147483648 ≤ iv ∧ iv ≤ 2147483647 := by
  have h2 : decide (s = "" ∧ -2147483648 ≤ iv ∧ iv ≤ 2147483647 ∧ dv = 0 ∧
      bv = false ∧ o.isEmpty = true ∧ a.isEmpty = true) = true := h
  have h3 := of_decide_eq_true h2
  exact ⟨h3.2.1, h3.2.2.1⟩

/-- A good Number value has a denominator dividing a million. -/
theorem goodTree_num (s : String) (iv : Int) (dv : Rat) (bv : Bool)
    (o : List (String × JSONValue)) (a : List JSONValue)
    (h : goodTree (.mk .Number s iv dv bv o a) = true) :
    1000000 % dv.den = 0 := by
  have h2 : decide (s = "" ∧ iv = 0 ∧ 1000000 % dv.den = 0 ∧ bv = false ∧
      o.isEmpty = true ∧ a.isEmpty = true) = true := h
  exact (of_decide_eq_true h2).2.2.1

/-- A good Object value has sorted good entries. -/
theorem goodTree_obj (s : String) (iv : Int) (dv : Rat) (bv : Bool)
    (o : List (String × JSONValue)) (a : List JSONValue)
    (h : goodTree (.mk .Object s iv dv bv o a) = true) :
    keysSorted o = true ∧ goodEntries o = true := by
  have h2 : ((decide (s = "" ∧ iv = 0 ∧ dv = 0 ∧ bv = false ∧
      a.isEmpty = true) && keysSorted o) && goodEntries o) = true := h
  simp only [Bool.and_eq_true] at h2
  exact ⟨h2.1.2, h2.2⟩

/-- A good Array value has good elements. -/
theorem goodTree_arr (s : String) (iv : Int) (dv : Rat) (bv : Bool)
    (o : List (String × JSONValue)) (a : List JSONValue)
    (h : goodTree (.mk .Array s iv dv bv o a) = true) :
    goodElems a = true := by
  have h2 : ((decide (s = "" ∧ iv = 0 ∧ dv = 0 ∧ bv = false ∧
      o.isEmpty = true)) && goodElems a) = true := h
  simp only [Bool.and_eq_true] at h2
  exact h2.2

/-- Characters of a clean string payload. -/
theorem strClean_chars (s : String) (h : strClean s = true) :
    ∀ c ∈ s.data, ¬(c = '"') ∧ ¬(c = '\\') := by
  intro c hc
  have h2 := List.all_eq_true.mp h c hc
  exact of_decide_eq_true h2

/-- Step: `parse_value` on a literal `true` prefix. -/
theorem parseRun_succ_true (m : Nat) (rest : List Char) :
    parseRun (m + 1) .value ('t' :: 'r' :: 'u' :: 'e' :: rest)
      = .ok (JSONValue.ofBool true, rest) := rfl

/-- Step: `parse_value` on a literal `false` prefix. -/
theorem parseRun_succ_false (m : Nat) (rest : List Char) :
    parseRun (m + 1) .value ('f' :: 'a' :: 'l' :: 's' :: 'e' :: rest)
      = .ok (JSONValue.ofBool false, rest) := rfl

/-- Step: `parse_value` on a literal `null` prefix. -/
theorem parseRun_succ_null (m : Nat) (rest : List Char) :
    parseRun (m + 1) .value ('n' :: 'u' :: 'l' :: 'l' :: rest)
      = .ok (JSONValue.null, rest) := rfl

/-- Step: `parse_value` on an empty object literal. -/
theorem parseRun_succ_obj_nil (m : Nat) (rest : List Char) :
    parseRun (m + 1) .value ('\x7b' :: '\x7d' :: rest)
      = .ok (mkObj emptyObjEntries, rest) := rfl

/-- Step: `parse_value` on an empty array literal. -/
theorem parseRun_succ_arr_nil (m : Nat) (rest : List Char) :
    parseRun (m + 1) .value ('[' :: ']' :: rest)
      = .ok (JSONValue.null, rest) := rfl

/-- Step: `parse_value` entering a nonempty object literal. -/
theorem parseRun_succ_obj_go (m : Nat) (X : List Char) :
    parseRun (m + 1) .value ('\x7b' :: '"' :: X)
      = parseRun m (.objLoop emptyObjEntries) ('"' :: X) := rfl

/-- Step: `parse_value` entering a nonempty array literal (any element head
that is not whitespace and not the closing bracket). -/
theorem parseRun_succ_arr_go (m : Nat) (c : Char) (X : List Char)
    (hc1 : isCSpace c = false) (hc2 : ¬c = ']') :
    parseRun (m + 1) .value ('[' :: c :: X)
      = parseRun m (.arrLoop []) (c :: X) := by
  simp only [parseRun, skipWs_cons_nows '[' (c :: X) (by decide),
    if_neg (show ¬('[' = '\x7b') from by decide), if_pos rfl, if_true,
    skipWs_cons_nows c X hc1]
  split
  · rename_i heq
    injection heq with he1 he2
    exact absurd he1 hc2
  · rename_i heq
    exact List.noConfusion heq
  · rfl

/-- Step: `parse_value` dispatching to `parse_number`. -/
theorem parseRun_succ_num (m : Nat) (c : Char) (X : List Char)
    (h : c.isDigit = true ∨ c = '-') :
    parseRun (m + 1) .value (c :: X) = parseNumberL (c :: X) := by
  have hfacts : ¬c = '\x7b' ∧ ¬c = '[' ∧ ¬c = '"' ∧ ¬c = 't' ∧ ¬c = 'f' ∧
      ¬c = 'n' ∧ isCSpace c = false := by
    rcases h with h3 | h3
    · have hd := digit_dispatch c h3
      exact ⟨hd.1, hd.2.1, hd.2.2.1, hd.2.2.2.1, hd.2.2.2.2.1,
        hd.2.2.2.2.2, digit_not_csp c h3⟩
    · subst h3
      exact ⟨by decide, by decide, by decide, by decide, by decide,
        by decide, by decide⟩
  obtain ⟨h1, h2, h3, h4, h5, h6, h7⟩ := hfacts
  simp only [parseRun, skipWs_cons_nows c X h7, if_neg h1, if_neg h2,
    if_neg h3, if_neg h6,
    if_neg (show ¬(c = 't' ∨ c = 'f') from by
      rintro (h8 | h8)
      · exact h4 h8
      · exact h5 h8),
    if_pos (show c.isDigit = true ∨ c = '-' from h)]

/-- Step: `parse_value` on a clean rendered string literal. -/
theorem parseRun_succ_string (m : Nat) (s : String) (r : List Char)
    (hs : ∀ c ∈ s.data, ¬(c = '"') ∧ ¬(c = '\\')) :
    parseRun (m + 1) .value ('"' :: (s.data ++ '"' :: r))
      = .ok (JSONValue.ofString s, r) := by
  have hgo : parseStringGo [] (s.data ++ '"' :: r) = .ok (s, r) := by
    rw [parseStringGo_clean s.data [] r hs]
    simp [data_asString]
  simp only [parseRun,
    skipWs_cons_nows '"' (s.data ++ '"' :: r) (by decide),
    if_neg (show ¬('"' = '\x7b') from by decide),
    if_neg (show ¬('"' = '[') from by decide), if_pos rfl, if_true]
  simp only [parseStringL, if_pos rfl, if_true, hgo]

/-- Step: one iteration of the object-member loop, entry form. -/
theorem parseRun_objLoop_entry (m : Nat) (acc : List (String × JSONValue))
    (X : List Char) :
    parseRun (m + 1) (.objLoop acc) ('"' :: X)
      = match parseStringGo [] X with
        | .error e => .error e
        | .ok (key, l2) =>
          match skipWs l2 with
          | ':' :: l3 =>
            match parseRun m .value l3 with
            | .error e => .error e
            | .ok (v2, l4) =>
              match skipWs l4 with
              | [] => .error "Unexpected end of input in object"
              | '\x7d' :: r => .ok (mkObj (setEntry acc key v2), r)
              | ',' :: r => parseRun m (.objLoop (setEntry acc key v2)) r
              | _ => .error ("Expected ',' or '" ++ String.singleton '\x7d'
                  ++ "' in object")
          | _ => .error "Expected ':' after key" := rfl

/-- Step: the object loop on a rendered member whose value parse closes the
object. -/
theorem parseRun_objLoop_close (m : Nat) (acc : List (String × JSONValue))
    (k : String) (Z : List Char) (w : JSONValue) (rest : List Char)
    (hk : ∀ c ∈ k.data, ¬(c = '"') ∧ ¬(c = '\\'))
    (hv : parseRun m .value (' ' :: Z) = .ok (w, '\x7d' :: rest)) :
    parseRun (m + 1) (.objLoop acc)
        ('"' :: (k.data ++ '"' :: ':' :: ' ' :: Z))
      = .ok (mkObj (setEntry acc k w), rest) := by
  have hgo : parseStringGo [] (k.data ++ '"' :: ':' :: ' ' :: Z)
      = .ok (k, ':' :: ' ' :: Z) := by
    rw [parseStringGo_clean k.data [] (':' :: ' ' :: Z) hk]
    simp [data_asString]
  calc parseRun (m + 1) (.objLoop acc)
        ('"' :: (k.data ++ '"' :: ':' :: ' ' :: Z))
      = match parseStringGo [] (k.data ++ '"' :: ':' :: ' ' :: Z) with
        | .error e => .error e
        | .ok (key, l2) =>
          match skipWs l2 with
          | ':' :: l3 =>
            match parseRun m .value l3 with
            | .error e => .error e
            | .ok (v2, l4) =>
              match skipWs l4 with
              | [] => .error "Unexpected end of input in object"
              | '\x7d' :: r => .ok (mkObj (setEntry acc key v2), r)
              | ',' :: r => parseRun m (.objLoop (setEntry acc key v2)) r
              | _ => .error ("Expected ',' or '" ++ String.singleton '\x7d'
                  ++ "' in object")
          | _ => .error "Expected ':' after key" := parseRun_objLoop_entry m acc _
    _ = match parseRun m .value (' ' :: Z) with
        | .error e => .error e
        | .ok (v2, l4) =>
          match skipWs l4 with
          | [] => .error "Unexpected end of input in object"
          | '\x7d' :: r => .ok (mkObj (setEntry acc k v2), r)
          | ',' :: r => parseRun m (.objLoop (setEntry acc k v2)) r
          | _ => .error ("Expected ',' or '" ++ String.singleton '\x7d'
              ++ "' in object") := by
          rw [hgo]
          rfl
    _ = .ok (mkObj (setEntry acc k w), rest) := by
          rw [hv]
          rfl

/-- Step: the object loop on a rendered member followed by a comma. -/
theorem parseRun_objLoop_step (m : Nat) (acc : List (String × JSONValue))
    (k : String) (Z E2 : List Char) (w : JSONValue)
    (hk : ∀ c ∈ k.data, ¬(c = '"') ∧ ¬(c = '\\'))
    (hv : parseRun m .value (' ' :: Z) = .ok (w, ',' :: E2)) :
    parseRun (m + 1) (.objLoop acc)
        ('"' :: (k.data ++ '"' :: ':' :: ' ' :: Z))
      = parseRun m (.objLoop (setEntry acc k w)) E2 := by
  have hgo : parseStringGo [] (k.data ++ '"' :: ':' :: ' ' :: Z)
      = .ok (k, ':' :: ' ' :: Z) := by
    rw [parseStringGo_clean k.data [] (':' :: ' ' :: Z) hk]
    simp [data_asString]
  calc parseRun (m + 1) (.objLoop acc)
        ('"' :: (k.data ++ '"' :: ':' :: ' ' :: Z))
      = match parseStringGo [] (k.data ++ '"' :: ':' :: ' ' :: Z) with
        | .error e => .error e
        | .ok (key, l2) =>
          match skipWs l2 with
          | ':' :: l3 =>
            match parseRun m .value l3 with
            | .error e => .error e
            | .ok (v2, l4) =>
              match skipWs l4 with
              | [] => .error "Unexpected end of input in object"
              | '\x7d' :: r => .ok (mkObj (setEntry acc key v2), r)
              | ',' :: r => parseRun m (.objLoop (setEntry acc key v2)) r
              | _ => .error ("Expected ',' or '" ++ String.singleton '\x7d'
                  ++ "' in object")
          | _ => .error "Expected ':' after key" := parseRun_objLoop_entry m acc _
    _ = match parseRun m .value (' ' :: Z) with
        | .error e => .error e
        | .ok (v2, l4) =>
          match skipWs l4 with
          | [] => .error "Unexpected end of input in object"
          | '\x7d' :: r => .ok (mkObj (setEntry acc k v2), r)
          | ',' :: r => parseRun m (.objLoop (setEntry acc k v2)) r
          | _ => .error ("Expected ',' or '" ++ String.singleton '\x7d'
              ++ "' in object") := by
          rw [hgo]
          rfl
    _ = parseRun m (.objLoop (setEntry acc k w)) E2 := by
          rw [hv]
          rfl

/-- Step: the array loop on a rendered element whose parse closes the
array. -/
theorem parseRun_arrLoop_close (m : Nat) (acc : List JSONValue) (c : Char)
    (t : List Char) (w : JSONValue) (rest : List Char)
    (hv : parseRun m .value (c :: t) = .ok (w, ']' :: rest)) :
    parseRun (m + 1) (.arrLoop acc) (c :: t)
      = .ok (mkArr (acc ++ [w]), rest) := by
  calc parseRun (m + 1) (.arrLoop acc) (c :: t)
      = match parseRun m .value (c :: t) with
        | .error e => .error e
        | .ok (v2, l2) =>
          match skipWs l2 with
          | [] => .error "Unexpected end of input in array"
          | ']' :: r => .ok (mkArr (acc ++ [v2]), r)
          | ',' :: r => parseRun m (.arrLoop (acc ++ [v2])) r
          | _ => .error "Expected ',' or ']' in array" := rfl
    _ = .ok (mkArr (acc ++ [w]), rest) := by
          rw [hv]
          rfl

/-- Step: the array loop on a rendered element followed by a comma. -/
theorem parseRun_arrLoop_step (m : Nat) (acc : List JSONValue) (c : Char)
    (t E2 : List Char) (w : JSONValue)
    (hv : parseRun m .value (c :: t) = .ok (w, ',' :: E2)) :
    parseRun (m + 1) (.arrLoop acc) (c :: t)
      = parseRun m (.arrLoop (acc ++ [w])) E2 := by
  calc parseRun (m + 1) (.arrLoop acc) (c :: t)
      = match parseRun m .value (c :: t) with
        | .error e => .error e
        | .ok (v2, l2) =>
          match skipWs l2 with
          | [] => .error "Unexpected end of input in array"
          | ']' :: r => .ok (mkArr (acc ++ [v2]), r)
          | ',' :: r => parseRun m (.arrLoop (acc ++ [v2])) r
          | _ => .error "Expected ',' or ']' in array" := rfl
    _ = parseRun m (.arrLoop (acc ++ [w])) E2 := by
          rw [hv]
          rfl

/-- Compact rendering of a single-member object body. -/
theorem entriesToString_single_data (k : String) (v : JSONValue) (ind : Nat) :
    (entriesToString [(k, v)] ind false).data
      = '"' :: (k.data ++ '"' :: ':' :: ' '
          :: (valueToString v (ind + 1) false).data) := by
  simp [entriesToString, String.data_append]

/-- Compact rendering of a two-or-more-member object body. -/
theorem entriesToString_cons2_data (k : String) (v : JSONValue)
    (p : String × JSONValue) (tl : List (String × JSONValue)) (ind : Nat) :
    (entriesToString ((k, v) :: p :: tl) ind false).data
      = '"' :: (k.data ++ '"' :: ':' :: ' '
          :: ((valueToString v (ind + 1) false).data
              ++ ',' :: (entriesToString (p :: tl) ind false).data)) := by
  simp [entriesToString, String.data_append]

/-- Compact rendering of a single-element array body. -/
theorem elemsToString_single_data (x : JSONValue) (ind : Nat) :
    (elemsToString [x] ind false).data
      = (valueToString x (ind + 1) false).data := by
  simp [elemsToString, String.data_append]

/-- Compact rendering of a two-or-more-element array body. -/
theorem elemsToString_cons2_data (x y : JSONValue) (tl : List JSONValue)
    (ind : Nat) :
    (elemsToString (x :: y :: tl) ind false).data
      = (valueToString x (ind + 1) false).data
          ++ ',' :: (elemsToString (y :: tl) ind false).data := by
  simp [elemsToString, String.data_append]

mutual

/-- Serialize-then-reparse on a good tree: `parse_value` consumes exactly the
compact rendering and returns the reparse image, for any admissible
continuation and any fuel exceeding the rendered length. -/
theorem roundVal : ∀ (fuel : Nat) (v : JSONValue), goodTree v = true →
    ∀ (ind : Nat) (rest : List Char), restOk rest = true →
    (valueToString v ind false).data.length < fuel →
    parseRun fuel .value ((valueToString v ind false).data ++ rest)
      = .ok (parseImage v, rest)
  | 0, _, _, _, _, _, hlen => absurd hlen (by omega)
  | m + 1, .mk ty s iv dv bv o a, hg, ind, rest, hre, hlen => by
    cases ty with
    | String =>
      have hD : (valueToString (.mk .String s iv dv bv o a) ind false).data
          = '"' :: (s.data ++ ['"']) := rfl
      rw [hD]
      have hsh : ('"' :: (s.data ++ ['"'])) ++ rest
          = '"' :: (s.data ++ '"' :: rest) := by simp
      rw [hsh, parseRun_succ_string m s rest
        (strClean_chars s (goodTree_str s iv dv bv o a hg))]
      rfl
    | Integer =>
      have hD : (valueToString (.mk .Integer s iv dv bv o a) ind false).data
          = intRepr iv := rfl
      rw [hD]
      obtain ⟨hr1, hr2⟩ := goodTree_int s iv dv bv o a hg
      by_cases hneg : iv < 0
      · have hI : intRepr iv = '-' :: natRepr iv.natAbs := by
          simp [intRepr, hneg]
        rw [hI]
        have hsh : ('-' :: natRepr iv.natAbs) ++ rest
            = '-' :: (natRepr iv.natAbs ++ rest) := rfl
        rw [hsh, parseRun_succ_num m '-' _ (Or.inr rfl)]
        have hsh2 : '-' :: (natRepr iv.natAbs ++ rest) = intRepr iv ++ rest := by
          rw [hI]
          rfl
        rw [hsh2, parseNumberL_intRepr iv rest hre hr1 hr2]
        rfl
      · cases hds : natRepr iv.natAbs with
        | nil => exact absurd hds (natRepr_ne_nil _)
        | cons d dt =>
          have hI : intRepr iv = d :: dt := by
            simp [intRepr, hneg, hds]
          rw [hI]
          have hd0 : d.isDigit = true :=
            natRepr_digits _ d (by rw [hds]; simp)
          have hsh : (d :: dt) ++ rest = d :: (dt ++ rest) := rfl
          rw [hsh, parseRun_succ_num m d _ (Or.inl hd0)]
          have hsh2 : d :: (dt ++ rest) = intRepr iv ++ rest := by
            rw [hI]
            rfl
          rw [hsh2, parseNumberL_intRepr iv rest hre hr1 hr2]
          rfl
    | Number =>
      have hD : (valueToString (.mk .Number s iv dv bv o a) ind false).data
          = (toString6 dv).data := rfl
      rw [hD]
      have hden := goodTree_num s iv dv bv o a hg
      obtain ⟨c, t, hct, hcd⟩ := toString6_head dv
      rw [hct]
      have hsh : (c :: t) ++ rest = c :: (t ++ rest) := rfl
      rw [hsh, parseRun_succ_num m c _ (by
        rcases hcd with h3 | h3
        · exact Or.inl h3
        · exact Or.inr h3)]
      have hsh2 : c :: (t ++ rest) = (toString6 dv).data ++ rest := by
        rw [hct]
        rfl
      rw [hsh2, parseNumberL_toString6 dv rest hre hden]
      rfl
    | Boolean =>
      cases bv with
      | true =>
        have hD : (valueToString (.mk .Boolean s iv dv true o a) ind
            false).data = ['t', 'r', 'u', 'e'] := rfl
        rw [hD]
        have hsh : (['t', 'r', 'u', 'e'] : List Char) ++ rest
            = 't' :: 'r' :: 'u' :: 'e' :: rest := rfl
        rw [hsh, parseRun_succ_true]
        rfl
      | false =>
        have hD : (valueToString (.mk .Boolean s iv dv false o a) ind
            false).data = ['f', 'a', 'l', 's', 'e'] := rfl
        rw [hD]
        have hsh : (['f', 'a', 'l', 's', 'e'] : List Char) ++ rest
            = 'f' :: 'a' :: 'l' :: 's' :: 'e' :: rest := rfl
        rw [hsh, parseRun_succ_false]
        rfl
    | Null =>
      have hD : (valueToString (.mk .Null s iv dv bv o a) ind false).data
          = ['n', 'u', 'l', 'l'] := rfl
      rw [hD]
      have hsh : (['n', 'u', 'l', 'l'] : List Char) ++ rest
          = 'n' :: 'u' :: 'l' :: 'l' :: rest := rfl
      rw [hsh, parseRun_succ_null]
      rfl
    | Object =>
      obtain ⟨hks, hge⟩ := goodTree_obj s iv dv bv o a hg
      rw [valueToString_obj_data s iv dv bv o a ind] at hlen ⊢
      cases o with
      | nil =>
        have hsh : ('\x7b' :: ((entriesToString [] ind false).data
            ++ ['\x7d'])) ++ rest = '\x7b' :: '\x7d' :: rest := rfl
        rw [hsh, parseRun_succ_obj_nil]
        rfl
      | cons p tl =>
        obtain ⟨k, v⟩ := p
        obtain ⟨t2, hE⟩ : ∃ t2,
            (entriesToString ((k, v) :: tl) ind false).data = '"' :: t2 :=
          ⟨_, entriesToString_cons_data k v tl ind⟩
        rw [hE] at hlen ⊢
        have hsh : ('\x7b' :: (('"' :: t2) ++ ['\x7d'])) ++ rest
            = '\x7b' :: '"' :: (t2 ++ '\x7d' :: rest) := by simp
        rw [hsh, parseRun_succ_obj_go m]
        simp only [List.length_cons, List.length_append,
          List.length_nil] at hlen
        have hre2 := roundEntries m ((k, v) :: tl) (by simp) hge ind
          emptyObjEntries rest hre (by
            rw [hE]
            simp only [List.length_cons]
            omega)
        rw [hE] at hre2
        rw [show ('"' :: t2) ++ '\x7d' :: rest
            = '"' :: (t2 ++ '\x7d' :: rest) from rfl] at hre2
        rw [hre2, foldl_set_parseImage _ hks]
        rfl
    | Array =>
      have hga := goodTree_arr s iv dv bv o a hg
      rw [valueToString_arr_data s iv dv bv o a ind] at hlen ⊢
      cases a with
      | nil =>
        have hsh : ('[' :: ((elemsToString [] ind false).data ++ [']']))
            ++ rest = '[' :: ']' :: rest := rfl
        rw [hsh, parseRun_succ_arr_nil]
        rfl
      | cons x tl =>
        obtain ⟨c, t, hct, hc1, hc2⟩ := valueToString_head x (ind + 1)
        have hEx : ∃ t2, (elemsToString (x :: tl) ind false).data
            = c :: t2 := by
          cases tl with
          | nil =>
            refine ⟨t, ?_⟩
            rw [elemsToString_single_data x ind, hct]
          | cons y tl2 =>
            refine ⟨t ++ ',' :: (elemsToString (y :: tl2) ind false).data, ?_⟩
            rw [elemsToString_cons2_data x y tl2 ind, hct]
            rfl
        obtain ⟨t2, hE⟩ := hEx
        rw [hE] at hlen ⊢
        have hsh : ('[' :: ((c :: t2) ++ [']'])) ++ rest
            = '[' :: c :: (t2 ++ ']' :: rest) := by simp
        rw [hsh, parseRun_succ_arr_go m c _ hc1 hc2]
        simp only [List.length_cons, List.length_append,
          List.length_nil] at hlen
        have hre2 := roundElems m (x :: tl) (by simp) hga ind [] rest hre (by
          rw [hE]
          simp only [List.length_cons]
          omega)
        rw [hE] at hre2
        rw [show (c :: t2) ++ ']' :: rest = c :: (t2 ++ ']' :: rest)
          from rfl] at hre2
        rw [hre2]
        rfl

/-- Serialize-then-reparse through the object-member loop: the loop consumes
the rendered members up to the closing brace and folds them into the
accumulated object. -/
theorem roundEntries : ∀ (fuel : Nat) (es : List (String × JSONValue)),
    es ≠ [] → goodEntries es = true →
    ∀ (ind : Nat) (acc : List (String × JSONValue)) (rest : List Char),
    restOk rest = true →
    (entriesToString es ind false).data.length + 1 < fuel →
    parseRun fuel (.objLoop acc)
        ((entriesToString es ind false).data ++ '\x7d' :: rest)
      = .ok (mkObj (List.foldl
          (fun m2 p => setEntry m2 p.1 (parseImage p.2)) acc es), rest)
  | 0, _, _, _, _, _, _, _, hlen => absurd hlen (by omega)
  | _ + 1, [], hne, _, _, _, _, _, _ => absurd rfl hne
  | m + 1, (k, v) :: tl, _, hge, ind, acc, rest, hre, hlen => by
    obtain ⟨hkc, hgv, hgtl⟩ := goodEntries_cons k v tl hge
    cases tl with
    | nil =>
      rw [entriesToString_single_data k v ind] at hlen ⊢
      have hsh : ('"' :: (k.data ++ '"' :: ':' :: ' '
          :: (valueToString v (ind + 1) false).data)) ++ '\x7d' :: rest
          = '"' :: (k.data ++ '"' :: ':' :: ' '
              :: ((valueToString v (ind + 1) false).data
                  ++ '\x7d' :: rest)) := by simp
      rw [hsh]
      simp only [List.length_cons, List.length_append] at hlen
      have hv : parseRun m .value
          (' ' :: ((valueToString v (ind + 1) false).data ++ '\x7d' :: rest))
          = .ok (parseImage v, '\x7d' :: rest) := by
        rw [parseRun_value_space]
        exact roundVal m v hgv (ind + 1) ('\x7d' :: rest) rfl (by omega)
      rw [parseRun_objLoop_close m acc k _ (parseImage v) rest
        (strClean_chars k hkc) hv]
      rfl
    | cons p tl2 =>
      rw [entriesToString_cons2_data k v p tl2 ind] at hlen ⊢
      have hsh : ('"' :: (k.data ++ '"' :: ':' :: ' '
          :: ((valueToString v (ind + 1) false).data
              ++ ',' :: (entriesToString (p :: tl2) ind false).data)))
          ++ '\x7d' :: rest
          = '"' :: (k.data ++ '"' :: ':' :: ' '
              :: ((valueToString v (ind + 1) false).data
                  ++ ',' :: ((entriesToString (p :: tl2) ind false).data
                      ++ '\x7d' :: rest))) := by simp
      rw [hsh]
      simp only [List.length_cons, List.length_append] at hlen
      have hv : parseRun m .value
          (' ' :: ((valueToString v (ind + 1) false).data
              ++ ',' :: ((entriesToString (p :: tl2) ind false).data
                  ++ '\x7d' :: rest)))
          = .ok (parseImage v,
              ',' :: ((entriesToString (p :: tl2) ind false).data
                  ++ '\x7d' :: rest)) := by
        rw [parseRun_value_space]
        exact roundVal m v hgv (ind + 1) _ rfl (by omega)
      rw [parseRun_objLoop_step m acc k _ _ (parseImage v)
        (strClean_chars k hkc) hv]
      rw [roundEntries m (p :: tl2) (by simp) hgtl ind
        (setEntry acc k (parseImage v)) rest hre (by omega)]
      rfl

/-- Serialize-then-reparse through the array-element loop. -/
theorem roundElems : ∀ (fuel : Nat) (xs : List JSONValue),
    xs ≠ [] → goodElems xs = true →
    ∀ (ind : Nat) (acc : List JSONValue) (rest : List Char),
    restOk rest = true →
    (elemsToString xs ind false).data.length + 1 < fuel →
    parseRun fuel (.arrLoop acc)
        ((elemsToString xs ind false).data ++ ']' :: rest)
      = .ok (mkArr (acc ++ parseImageElems xs), rest)
  | 0, _, _, _, _, _, _, _, hlen => absurd hlen (by omega)
  | _ + 1, [], hne, _, _, _, _, _, _ => absurd rfl hne
  | m + 1, x :: tl, _, hge, ind, acc, rest, hre, hlen => by
    obtain ⟨hgx, hgtl⟩ := goodElems_cons x tl hge
    obtain ⟨c, t, hct, hc1, hc2⟩ := valueToString_head x (ind + 1)
    cases tl with
    | nil =>
      rw [elemsToString_single_data x ind] at hlen ⊢
      rw [hct] at hlen ⊢
      have hsh : (c :: t) ++ ']' :: rest = c :: (t ++ ']' :: rest) := rfl
      rw [hsh]
      simp only [List.length_cons] at hlen
      have hv : parseRun m .value (c :: (t ++ ']' :: rest))
          = .ok (parseImage x, ']' :: rest) := by
        have h2 := roundVal m x hgx (ind + 1) (']' :: rest) rfl (by
          rw [hct]
          simp only [List.length_cons]
          omega)
        rw [hct] at h2
        rw [hsh] at h2
        exact h2
      rw [parseRun_arrLoop_close m acc c _ (parseImage x) rest hv]
      rfl
    | cons y tl2 =>
      rw [elemsToString_cons2_data x y tl2 ind] at hlen ⊢
      rw [hct] at hlen ⊢
      have hsh : ((c :: t) ++ ',' :: (elemsToString (y :: tl2) ind
          false).data) ++ ']' :: rest
          = c :: (t ++ ',' :: ((elemsToString (y :: tl2) ind false).data
              ++ ']' :: rest)) := by simp
      rw [hsh]
      simp only [List.length_cons, List.length_append] at hlen
      have hv : parseRun m .value (c :: (t ++ ',' ::
          ((elemsToString (y :: tl2) ind false).data ++ ']' :: rest)))
          = .ok (parseImage x,
              ',' :: ((elemsToString (y :: tl2) ind false).data
                  ++ ']' :: rest)) := by
        have h2 := roundVal m x hgx (ind + 1)
          (',' :: ((elemsToString (y :: tl2) ind false).data ++ ']' :: rest))
          rfl (by
            rw [hct]
            simp only [List.length_cons]
            omega)
        rw [hct] at h2
        rw [show (c :: t) ++ ',' :: ((elemsToString (y :: tl2) ind
            false).data ++ ']' :: rest)
            = c :: (t ++ ',' :: ((elemsToString (y :: tl2) ind false).data
                ++ ']' :: rest)) from rfl] at h2
        exact h2
      rw [parseRun_arrLoop_step m acc c _ _ (parseImage x) hv]
      rw [roundElems m (y :: tl2) (by simp) hgtl ind
        (acc ++ [parseImage x]) rest hre (by omega)]
      simp [parseImageElems]

end

/-- Claim C4 (amended): serialize-then-reparse on a good tree — payload
strings and keys free of quote/backslash, ints in the 32-bit range, doubles
with denominator dividing a million, object entry lists strictly ascending —
succeeds and returns exactly the reparse image of the tree: scalars
reproduced, every object topped up with the parser's empty-string member when
missing, and empty arrays collapsed to Null. -/
theorem round_trip_amended (v : JSONValue) (h : goodTree v = true) :
    JSONParser.parse (JSONParser.to_string ⟨true, "", v⟩ false)
      = ⟨true, "", parseImage v⟩ := by
  show JSONParser.parse (valueToString v 0 false) = _
  simp only [JSONParser.parse]
  have hrun := roundVal ((valueToString v 0 false).length + 1) v h 0 [] rfl
    (by
      have hL : (valueToString v 0 false).length
          = (valueToString v 0 false).data.length := rfl
      omega)
  rw [List.append_nil] at hrun
  rw [hrun]

/-- Instance of `round_trip_amended` on a nested good tree with all
representable kinds. -/
theorem round_trip_amended_witness :
    goodTree (.mk .Object "" 0 0 false
        [("", JSONValue.ofBool true), ("a", JSONValue.ofInt (-5)),
         ("b", .mk .Array "" 0 0 false []
            [JSONValue.ofDouble (Rat.divInt 3 2), JSONValue.ofString "hi",
             JSONValue.null])] []) = true ∧
    JSONParser.parse (JSONParser.to_string
        ⟨true, "", .mk .Object "" 0 0 false
          [("", JSONValue.ofBool true), ("a", JSONValue.ofInt (-5)),
           ("b", .mk .Array "" 0 0 false []
              [JSONValue.ofDouble (Rat.divInt 3 2), JSONValue.ofString "hi",
               JSONValue.null])] []⟩ false)
      = ⟨true, "", parseImage (.mk .Object "" 0 0 false
          [("", JSONValue.ofBool true), ("a", JSONValue.ofInt (-5)),
           ("b", .mk .Array "" 0 0 false []
              [JSONValue.ofDouble (Rat.divInt 3 2), JSONValue.ofString "hi",
               JSONValue.null])] [])⟩ :=
  ⟨rfl, round_trip_amended (.mk .Object "" 0 0 false
      [("", JSONValue.ofBool true), ("a", JSONValue.ofInt (-5)),
       ("b", .mk .Array "" 0 0 false []
          [JSONValue.ofDouble (Rat.divInt 3 2), JSONValue.ofString "hi",
           JSONValue.null])] []) rfl⟩
